import Mathlib

/-!
Verification development for the candidate-detection stage of the riptide
periodicity-search pipeline (`riptide/peak_detection.py`).

The Python source is shallowly embedded over `ℚ`:

* numpy 1-D arrays become `List ℚ`, the S/N grid becomes `List (List ℚ)`
  (rows indexed by period trial, entries by width trial);
* fallible numpy operations (column extraction, broadcasting of elementwise
  comparison, boolean-mask and fancy indexing, percentile of an empty slice)
  return `Option`, with `none` standing for a raised Python exception;
* `np.log` and `np.polyfit` are external numeric library primitives; they are
  threaded through as explicit function parameters (`rlog`, `polyfit`) so
  theorems hold for any implementation, with the least-squares contract of
  `np.polyfit` stated as an explicit predicate where a claim needs it;
* `cluster_1d` is imported by the source from `riptide.clustering`, a module
  not present in the repository snapshot; it is modelled from the spec.
-/

namespace Riptide

/-- Truncation toward zero of a rational, modelling Python's `int()` cast
applied to a float. -/
def qtrunc (x : ℚ) : ℤ :=
  if 0 ≤ x then ⌊x⌋ else -⌊-x⌋

/-- Insert a rational into a sorted list, keeping it sorted (ascending). -/
def insertQ (x : ℚ) : List ℚ → List ℚ
  | [] => [x]
  | y :: l => if x ≤ y then x :: y :: l else y :: insertQ x l

/-- Ascending insertion sort on rationals, modelling the sort performed
internally by `np.percentile`. -/
def sortQ (l : List ℚ) : List ℚ :=
  l.foldr insertQ []

/-- Linear-interpolation percentile of a nonempty list, modelling the default
(`linear`) contract of `np.percentile`; `none` models the error raised on an
empty array. -/
def percentile (q : ℚ) (xs : List ℚ) : Option ℚ :=
  if xs.isEmpty then none else
    let s := sortQ xs
    let h : ℚ := q / 100 * ((s.length : ℚ) - 1)
    let k : ℕ := (⌊h⌋).toNat
    let frac : ℚ := h - (k : ℚ)
    some (s.getD k 0 + frac * (s.getD (k + 1) 0 - s.getD k 0))

/-- Evaluation of a polynomial given by its coefficient list with the highest
degree first, matching `np.poly1d` applied to `np.polyfit` output. -/
def polyEval (c : List ℚ) (x : ℚ) : ℚ :=
  c.foldl (fun acc a => acc * x + a) 0

/-- Sum of squared residuals of the polynomial `c` against data points
`x`, `y`; the quantity `np.polyfit` minimizes. -/
def ssr (x y c : List ℚ) : ℚ :=
  ((x.zip y).map (fun p => (polyEval c p.1 - p.2) ^ 2)).sum

/-- The documented contract of `np.polyfit deg x y`: it returns `deg + 1`
coefficients minimizing the sum of squared residuals on the data. -/
def IsLeastSquaresFit (deg : ℕ) (x y c : List ℚ) : Prop :=
  c.length = deg + 1 ∧ ∀ c', c'.length = deg + 1 → ssr x y c ≤ ssr x y c'

/-- Option-valued effectful map over a list; `none` as soon as one element
fails.  Local definition with full control over unfolding lemmas. -/
def optMapM (f : α → Option β) : List α → Option (List β)
  | [] => some []
  | a :: l => (f a).bind fun b => (optMapM f l).bind fun bs => some (b :: bs)

/-- Indices at which a boolean mask is true, modelling `np.where(mask)[0]`. -/
def trueIndices (mask : List Bool) : List ℕ :=
  (List.range mask.length).filter (fun i => mask.getD i false)

/-- Elementwise strict comparison `a > b` of two numpy 1-D arrays, with
numpy's length-1 broadcasting; `none` models the broadcast `ValueError` on
incompatible lengths. -/
def npGT (a b : List ℚ) : Option (List Bool) :=
  if a.length = b.length then some (List.zipWith (fun x y => decide (y < x)) a b)
  else if a.length = 1 then some (b.map (fun y => decide (y < a.headD 0)))
  else if b.length = 1 then some (a.map (fun x => decide (b.headD 0 < x)))
  else none

/-- Boolean-mask indexing `xs[mask]`, modelling numpy's requirement that the
mask length equal the array length. -/
def npBoolIndex (xs : List ℚ) (mask : List Bool) : Option (List ℚ) :=
  if mask.length = xs.length then
    some ((trueIndices mask).map (fun i => xs.getD i 0))
  else none

/-- Sorted insertion of an index by its associated value; equal values keep
the later-inserted index behind, giving a stable sort under `foldr`. -/
def insertIdx (v : ℕ → ℚ) (i : ℕ) : List ℕ → List ℕ
  | [] => [i]
  | j :: l => if v i ≤ v j then i :: j :: l else j :: insertIdx v i l

/-- Stable sort of an index list by associated value (argsort). -/
def argsortIdx (v : ℕ → ℚ) (l : List ℕ) : List ℕ :=
  l.foldr (insertIdx v) []

/-- Split a chain of indices (assumed sorted by value) into groups, starting a
new group whenever the gap between consecutive values reaches the radius. -/
def gapSplit (v : ℕ → ℚ) (r : ℚ) : List ℕ → List (List ℕ)
  | [] => []
  | [i] => [[i]]
  | i :: j :: rest =>
    match gapSplit v r (j :: rest) with
    | [] => [[i]]
    | g :: gs => if v j - v i < r then (i :: g) :: gs else [i] :: g :: gs

/-- Modelled from the spec: the source imports `cluster_1d` from
`riptide.clustering`, which is absent from the repository snapshot.  Spec
§4.1: single-linkage 1-D clustering — sort the values, split wherever the gap
between consecutive sorted values reaches the radius (equality does not
merge), and map the split runs back to original indices; groups come out
ascending by minimum member value and are each non-empty. -/
def cluster_1d (values : List ℚ) (r : ℚ) : List (List ℕ) :=
  gapSplit (fun i => values.getD i 0) r
    (argsortIdx (fun i => values.getD i 0) (List.range values.length))

/-- Index of the first occurrence of the maximum of a list, modelling
`np.argmax` (0 on the empty list, where numpy would raise). -/
def argmaxFirstIdx : List ℚ → ℕ
  | [] => 0
  | [_] => 0
  | x :: y :: l =>
    let k := argmaxFirstIdx (y :: l)
    if x < (y :: l).getD k 0 then k + 1 else 0

/-- Grid metadata; the peak-detection code reads only the key `dm` from the
grid's metadata bag. -/
structure Metadata where
  dm : ℚ
deriving DecidableEq

/-- The input periodogram grid: trial periods, the S/N grid (one row per
period trial, one entry per width trial), trial widths, observation duration,
metadata and the average number of bins used (`pgram._plan.bins_avg`). -/
structure Pgram where
  periods : List ℚ
  snrs : List (List ℚ)
  widths : List ℚ
  tobs : ℚ
  metadata : Metadata
  bins_avg : ℚ
deriving DecidableEq

/-- One row of the segmentation DataFrame: half-open index range, midpoint
index, midpoint period and its logarithm. -/
structure Seg where
  istart : ℕ
  iend : ℕ
  imid : ℕ
  pmid : ℚ
  logpmid : ℚ
deriving DecidableEq

/-- One row of the segment-statistics DataFrame. -/
structure StatRow where
  p25 : ℚ
  median : ℚ
  p75 : ℚ
  sigma : ℚ
  pmid : ℚ
  logpmid : ℚ
deriving DecidableEq

/-- An immutable peak record: best trial period and S/N of one cluster of one
width column, with dispersion measure, width index, width and duty cycle. -/
structure Peak where
  period : ℚ
  snr : ℚ
  dm : ℚ
  iw : ℕ
  width : ℚ
  ducy : ℚ
deriving DecidableEq

/-- A Detection: the representative `Peak` data (the fields set by the
`super().__init__` call), the contributing peaks, and the local diagnostic
extract of the grid. -/
structure Detection where
  toPeak : Peak
  peaks : List Peak
  period_trials : List ℚ
  snr_trials : List (List ℚ)
  width_trials : List ℚ
  metadata : Metadata
deriving DecidableEq

/-- Detections inherit the `period` attribute from their representative Peak. -/
def Detection.period (d : Detection) : ℚ := d.toPeak.period

/-- Detections inherit the `snr` attribute from their representative Peak. -/
def Detection.snr (d : Detection) : ℚ := d.toPeak.snr

/-- Detections inherit the `dm` attribute from their representative Peak. -/
def Detection.dm (d : Detection) : ℚ := d.toPeak.dm

/-- Detections inherit the `iw` attribute from their representative Peak. -/
def Detection.iw (d : Detection) : ℕ := d.toPeak.iw

/-- Detections inherit the `width` attribute from their representative Peak. -/
def Detection.width (d : Detection) : ℚ := d.toPeak.width

/-- Detections inherit the `ducy` attribute from their representative Peak. -/
def Detection.ducy (d : Detection) : ℚ := d.toPeak.ducy

/-- Result bundle of `find_peaks_single`: the statistics table, polynomial
coefficients, per-trial threshold array and list of peaks. -/
structure FPSRes where
  stats : List StatRow
  polyco : List ℚ
  threshold : List ℚ
  peaks : List Peak
deriving DecidableEq

/-- `max(peaks, key=attrgetter("snr"))`: the first peak of maximal S/N;
`none` models the `ValueError` raised by `max` on an empty sequence. -/
def maxBySnr : List Peak → Option Peak
  | [] => none
  | [p] => some p
  | p :: q :: l =>
    match maxBySnr (q :: l) with
    | none => some p
    | some m => some (if p.snr < m.snr then m else p)

/-- The list of raw `(istart, iend)` boundary pairs built inside `segment`:
`nseg` contiguous ranges of length `slen`, with the final pair's end forced to
`n` (the Python code builds the full list and then overwrites the last pair). -/
def segBounds (n nseg slen : ℕ) : List (ℕ × ℕ) :=
  (((List.range nseg).map (fun i => (i * slen, (i + 1) * slen))).dropLast)
    ++ [((nseg - 1) * slen, n)]

/-- `segment(periods, tobs, segment_dftbins_length)`: break the period trials
into equal-sized segments.  `none` models the `IndexError` raised on an empty
period array (`periods[0]`).  `rlog` is the external `np.log`. -/
def segment (rlog : ℚ → ℚ) (periods : List ℚ) (tobs : ℚ)
    (segment_dftbins_length : ℚ) : Option (List Seg) :=
  match periods with
  | [] => none
  | p0 :: _ =>
    let dbi_range := tobs / p0 - tobs / periods.getLastD 0
    let nseg : ℕ := (max 1 (qtrunc (dbi_range / segment_dftbins_length))).toNat
    let slen : ℕ := periods.length / nseg
    optMapM
      (fun b =>
        (periods.get? ((b.1 + b.2) / 2)).bind fun pmid =>
          some ⟨b.1, b.2, (b.1 + b.2) / 2, pmid, rlog pmid⟩)
      (segBounds periods.length nseg slen)

/-- The Python slice `snrs[s:e]` (silently truncated at the array's end). -/
def sliceSeg (snrs : List ℚ) (s e : ℕ) : List ℚ :=
  (snrs.drop s).take (e - s)

/-- One row of `segment_stats`: the three percentiles of the segment's S/N
slice, the robust spread, and the segment's representative (log-)period. -/
def statsRowOf (snrs : List ℚ) (b : Seg) : Option StatRow :=
  let sl := sliceSeg snrs b.istart b.iend
  (percentile 25 sl).bind fun p25 =>
  (percentile 50 sl).bind fun med =>
  (percentile 75 sl).bind fun p75 =>
  some ⟨p25, med, p75, (p75 - p25) / (1.349 : ℚ), b.pmid, b.logpmid⟩

/-- `segment_stats(snrs, boundaries)`: the per-segment statistics table. -/
def segment_stats (snrs : List ℚ) (boundaries : List Seg) :
    Option (List StatRow) :=
  optMapM (statsRowOf snrs) boundaries

/-- `threshold_function_dynamic(stats, snr_min, nsigma, polydeg)`: fit a
polynomial in log-period to `median + nsigma * sigma` via the external
`polyfit`, and return the threshold function (the polynomial at `log(period)`
clamped below at `snr_min`) together with the fitted coefficients. -/
def threshold_function_dynamic (rlog : ℚ → ℚ)
    (polyfit : ℕ → List ℚ → List ℚ → List ℚ) (stats : List StatRow)
    (snr_min nsigma : ℚ) (polydeg : ℕ) : (ℚ → ℚ) × List ℚ :=
  let x := stats.map (fun s => s.logpmid)
  let y := stats.map (fun s => s.median + nsigma * s.sigma)
  let c := polyfit polydeg x y
  (fun period => max (polyEval c (rlog period)) snr_min, c)

/-- `threshold_function_static(snr_min, polydeg)`: the constant threshold
`snr_min` with an all-zero coefficient vector of length `polydeg + 1`. -/
def threshold_function_static (snr_min : ℚ) (polydeg : ℕ) :
    (ℚ → ℚ) × List ℚ :=
  (fun _ => snr_min, List.replicate (polydeg + 1) 0)

/-- Column extraction `pgram.snrs[:, iwidth]`; `none` models the
`IndexError` when some row is too short. -/
def columnOf (snrs : List (List ℚ)) (iwidth : ℕ) : Option (List ℚ) :=
  optMapM (fun row => row.get? iwidth) snrs

/-- The body of the per-cluster loop of `find_peaks_single`: map cluster
positions back to significant trial indices, slice out their periods and
S/N values, and build the `Peak` from the argmax-S/N member. -/
def mkPeakOfCluster (pg : Pgram) (iwidth : ℕ) (width : ℚ) (snrs : List ℚ)
    (sigIdx : List ℕ) (cli : List ℕ) : Option Peak :=
  (optMapM (fun c => sigIdx.get? c) cli).bind fun peak_indices =>
  (optMapM (fun j => pg.periods.get? j) peak_indices).bind fun periods_slice =>
  (optMapM (fun j => snrs.get? j) peak_indices).bind fun snrs_slice =>
  let imax := argmaxFirstIdx snrs_slice
  (periods_slice.get? imax).bind fun pmax =>
  (snrs_slice.get? imax).bind fun smax =>
  some ⟨pmax, smax, pg.metadata.dm, iwidth, width, width / pg.bins_avg⟩

/-- The threshold-policy selection inside `find_peaks_single`: static when
there are fewer segments than `min_segments`, dynamic otherwise. -/
def policyOf (rlog : ℚ → ℚ) (polyfit : ℕ → List ℚ → List ℚ → List ℚ)
    (boundaries : List Seg) (stats : List StatRow) (min_segments : ℕ)
    (snr_min nsigma : ℚ) (polydeg : ℕ) : (ℚ → ℚ) × List ℚ :=
  if boundaries.length < min_segments then
    threshold_function_static snr_min polydeg
  else
    threshold_function_dynamic rlog polyfit stats snr_min nsigma polydeg

/-- `find_peaks_single(pgram, iwidth, boundaries, ...)`: compute segment
statistics and the (static or dynamic) threshold for one width column, mark
trials with S/N strictly above the threshold at their period as significant,
cluster them by DFT-bin index, and emit one Peak per cluster. -/
def find_peaks_single (rlog : ℚ → ℚ)
    (polyfit : ℕ → List ℚ → List ℚ → List ℚ) (pg : Pgram) (iwidth : ℕ)
    (boundaries : List Seg) (min_segments : ℕ) (snr_min nsigma : ℚ)
    (peak_clustering_radius : ℚ) (polydeg : ℕ) : Option FPSRes :=
  (columnOf pg.snrs iwidth).bind fun snrs =>
  (pg.widths.get? iwidth).bind fun width =>
  (segment_stats snrs boundaries).bind fun stats =>
  let tp := policyOf rlog polyfit boundaries stats min_segments snr_min nsigma polydeg
  let threshold := pg.periods.map tp.1
  (npGT snrs threshold).bind fun mask =>
  let sigIdx := trueIndices mask
  if sigIdx.isEmpty then some ⟨stats, tp.2, threshold, []⟩
  else
    (npBoolIndex pg.periods mask).bind fun sigPeriods =>
    let dbi := sigPeriods.map (fun p => pg.tobs / p)
    (optMapM (mkPeakOfCluster pg iwidth width snrs sigIdx)
        (cluster_1d dbi peak_clustering_radius)).bind fun peaks =>
    some ⟨stats, tp.2, threshold, peaks⟩

/-- The pooling stage of `find_peaks`: segment the period axis once, run
`find_peaks_single` for every width trial, and concatenate all Peaks. -/
def pooledPeaks (rlog : ℚ → ℚ) (polyfit : ℕ → List ℚ → List ℚ → List ℚ)
    (pg : Pgram) (segment_dftbins_length : ℚ) (min_segments : ℕ)
    (snr_min nsigma peak_clustering_radius : ℚ) (polydeg : ℕ) :
    Option (List Peak) :=
  (segment rlog pg.periods pg.tobs segment_dftbins_length).bind fun boundaries =>
  (optMapM
      (fun iwidth =>
        find_peaks_single rlog polyfit pg iwidth boundaries min_segments
          snr_min nsigma peak_clustering_radius polydeg)
      (List.range pg.widths.length)).bind fun results =>
  some ((results.map (fun r => r.peaks)).flatten)

/-- `Detection.__init__(peaks, pgram, period_slice_width)`: pick the
highest-S/N peak as representative, and extract the local window of trials
whose DFT-bin distance from the representative's bin is below half the slice
width, across every width trial. -/
def detection_mk (peaks : List Peak) (pg : Pgram) (period_slice_width : ℚ) :
    Option Detection :=
  (maxBySnr peaks).bind fun top =>
  let dbis := pg.periods.map (fun p => pg.tobs / p)
  let mask := dbis.map (fun d => decide (|d - pg.tobs / top.period| < period_slice_width / 2))
  let idx := trueIndices mask
  (optMapM (fun i => pg.periods.get? i) idx).bind fun period_trials =>
  (optMapM (fun i => pg.snrs.get? i) idx).bind fun snr_trials =>
  some ⟨top, peaks, period_trials, snr_trials, pg.widths, pg.metadata⟩

/-- `find_peaks(pgram, ...)`: pool the Peaks of every width trial, cluster
them by DFT-bin index, and build one Detection per cluster. -/
def find_peaks (rlog : ℚ → ℚ) (polyfit : ℕ → List ℚ → List ℚ → List ℚ)
    (pg : Pgram) (segment_dftbins_length : ℚ) (min_segments : ℕ)
    (snr_min nsigma peak_clustering_radius : ℚ) (polydeg : ℕ)
    (period_slice_width : ℚ) : Option (List Detection) :=
  (pooledPeaks rlog polyfit pg segment_dftbins_length min_segments snr_min
      nsigma peak_clustering_radius polydeg).bind fun all_peaks =>
  let dbi := all_peaks.map (fun pk => pg.tobs / pk.period)
  optMapM
    (fun cli =>
      (optMapM (fun ix => all_peaks.get? ix) cli).bind fun peak_group =>
      detection_mk peak_group pg period_slice_width)
    (cluster_1d dbi peak_clustering_radius)

/-- A periodogram whose metadata bag lives behind a mutable reference (an
index into a store of metadata objects), modelling Python reference
semantics of the `pgram.metadata` attribute. -/
structure PgramShared where
  periods : List ℚ
  snrs : List (List ℚ)
  widths : List ℚ
  tobs : ℚ
  metaRef : ℕ
deriving DecidableEq

/-- A Detection under reference semantics: the diagnostic arrays are values
(numpy fancy indexing returns copies) but the metadata field is the reference
stored by `self.metadata = pgram.metadata`. -/
structure DetectionShared where
  toPeak : Peak
  peaks : List Peak
  period_trials : List ℚ
  snr_trials : List (List ℚ)
  width_trials : List ℚ
  metaRef : ℕ
deriving DecidableEq

/-- `Detection.__init__` under reference semantics for the metadata
attribute: lines 141-155 of `peak_detection.py`, with
`self.metadata = pgram.metadata` copying the reference, not the object. -/
def detection_mk_shared (peaks : List Peak) (pg : PgramShared)
    (period_slice_width : ℚ) : Option DetectionShared :=
  (maxBySnr peaks).bind fun top =>
  let dbis := pg.periods.map (fun p => pg.tobs / p)
  let mask := dbis.map (fun d => decide (|d - pg.tobs / top.period| < period_slice_width / 2))
  let idx := trueIndices mask
  (optMapM (fun i => pg.periods.get? i) idx).bind fun period_trials =>
  (optMapM (fun i => pg.snrs.get? i) idx).bind fun snr_trials =>
  some ⟨top, peaks, period_trials, snr_trials, pg.widths, pg.metaRef⟩

/-- Dereference a metadata reference in the store. -/
def readMeta (store : List Metadata) (r : ℕ) : Option Metadata :=
  store.get? r

/-- Mutate the metadata object at a reference in the store. -/
def writeMeta (store : List Metadata) (r : ℕ) (m : Metadata) : List Metadata :=
  store.set r m

/-- The number of segments computed inside `segment`. -/
def nsegOf (periods : List ℚ) (tobs w : ℚ) : ℕ :=
  (max 1 (qtrunc ((tobs / periods.headD 0 - tobs / periods.getLastD 0) / w))).toNat

/-- The common segment length (in trials) computed inside `segment`. -/
def slenOf (periods : List ℚ) (tobs w : ℚ) : ℕ :=
  periods.length / nsegOf periods tobs w

/-- The significance mask of one width column against the threshold array
(the elementwise `snrs > threshold` in the aligned-length case). -/
def maskOf (col thr : List ℚ) : List Bool :=
  List.zipWith (fun x y => decide (y < x)) col thr

/-- The significant trial indices of one width column. -/
def sigIdxOf (col thr : List ℚ) : List ℕ :=
  trueIndices (maskOf col thr)

/-- The clusters of significant trials of one width column, in DFT-bin-index
space. -/
def clsOf (pg : Pgram) (col thr : List ℚ) (radius : ℚ) : List (List ℕ) :=
  cluster_1d ((sigIdxOf col thr).map (fun i => pg.tobs / pg.periods.getD i 0))
    radius

/-- The Peak `find_peaks_single` builds from one cluster: the argmax-S/N
member's period and S/N with the grid's dm, this width's index and value, and
duty cycle `width / bins_avg`. -/
def peakFormula (pg : Pgram) (iwidth : ℕ) (w : ℚ) (col : List ℚ)
    (sigIdx : List ℕ) (cli : List ℕ) : Peak :=
  let pidxs := cli.map (fun c => sigIdx.getD c 0)
  let svals := pidxs.map (fun j => col.getD j 0)
  let m := argmaxFirstIdx svals
  ⟨pg.periods.getD (pidxs.getD m 0) 0, svals.getD m 0, pg.metadata.dm,
    iwidth, w, w / pg.bins_avg⟩

/-- Placeholder Peak used as a `getD` default in closed-form statements; never
selected when the index is in range. -/
def peak0 : Peak := ⟨0, 0, 0, 0, 0, 0⟩

/-- The indices of the period trials selected by the Detection's local slice
around a representative period `p0`. -/
def detIdxOf (pg : Pgram) (p0 sw : ℚ) : List ℕ :=
  trueIndices ((pg.periods.map (fun p => pg.tobs / p)).map
    (fun d => decide (|d - pg.tobs / p0| < sw / 2)))

/-- The Detection `find_peaks` builds from one cluster of pooled peaks. -/
def detFormula (pg : Pgram) (sw : ℚ) (pool : List Peak) (cli : List ℕ) :
    Detection :=
  let grp := cli.map (fun ix => pool.getD ix peak0)
  let top := (maxBySnr grp).getD peak0
  ⟨top, grp,
    (detIdxOf pg top.period sw).map (fun i => pg.periods.getD i 0),
    (detIdxOf pg top.period sw).map (fun i => pg.snrs.getD i []),
    pg.widths, pg.metadata⟩

/-- Concrete `np.log` stand-in used in witnesses (the theorems hold for any
implementation). -/
def rlog0 : ℚ → ℚ := fun _ => 0

/-- Concrete `np.polyfit` stand-in used in witnesses. -/
def pfit0 : ℕ → List ℚ → List ℚ → List ℚ := fun _ _ _ => []

/-- Concrete two-trial periodogram used in witnesses. -/
def pgW : Pgram := ⟨[1, 2], [[10], [1]], [3], 1, ⟨5⟩, 12⟩

/-- Concrete one-segment boundary table used in witnesses. -/
def bndW : List Seg := [⟨0, 2, 1, 2, 0⟩]

/-- Concrete statistics table of `pgW`'s single column over `bndW`. -/
def statsW : List StatRow := [⟨13/4, 11/2, 31/4, 4500/1349, 2, 0⟩]

/-- Concrete `find_peaks_single` output on the witness inputs. -/
def resW : FPSRes := ⟨statsW, [0, 0, 0], [13/2, 13/2], [⟨1, 10, 5, 0, 3, 1/4⟩]⟩

/-- Concrete pooled-peak list produced by `pgW` (one peak). -/
def poolW : List Peak := [⟨1, 10, 5, 0, 3, 1/4⟩]

/-- Concrete `np.polyfit` stand-in for the least-squares witness: the constant
polynomial through the single target value 5. -/
def pfit5 : ℕ → List ℚ → List ℚ → List ℚ :=
  fun d _ _ => List.replicate d 0 ++ [5]

/-- Concrete one-segment statistics table with constant S/N 5. -/
def statsC7 : List StatRow := [⟨5, 5, 5, 0, 1, 0⟩]

/-- Concrete grid with two S/N columns but a single width trial: the surplus
column (holding S/N 5) is silently ignored by `find_peaks`. -/
def pgC8 : Pgram := ⟨[1], [[1, 5]], [2], 1, ⟨0⟩, 3⟩

/-- Concrete grid with two S/N rows but three period trials (a row/period
mismatch with both counts at least 2). -/
def pgC8r : Pgram := ⟨[1, 2, 3], [[1], [1]], [3], 1, ⟨0⟩, 3⟩

/-- Concrete representative peak for the reference-semantics scenario. -/
def pk9 : Peak := ⟨1, 10, 5, 0, 3, 1/4⟩

/-- Concrete shared-metadata periodogram whose metadata object lives at
reference 0 of the store. -/
def pgS : PgramShared := ⟨[1], [[1]], [3], 1, 0⟩

/-- The Detection built from `pk9` over `pgS` under reference semantics. -/
def dS : DetectionShared := ⟨pk9, [pk9], [1], [[1]], [3], 0⟩

theorem optMapM_length {f : α → Option β} :
    ∀ {l : List α} {ys : List β}, optMapM f l = some ys → ys.length = l.length := by
  intro l
  induction l with
  | nil => intro ys h; simp [optMapM] at h; simp [← h]
  | cons a t ih =>
    intro ys h
    simp only [optMapM] at h
    cases hfa : f a with
    | none => rw [hfa] at h; simp at h
    | some b =>
      rw [hfa] at h
      cases hrest : optMapM f t with
      | none => rw [hrest] at h; simp at h
      | some bs =>
        rw [hrest] at h
        simp at h
        subst h
        simp [ih hrest]

theorem optMapM_get? {f : α → Option β} :
    ∀ {l : List α} {ys : List β}, optMapM f l = some ys →
      ∀ i, i < l.length →
        ∃ a b, l.get? i = some a ∧ ys.get? i = some b ∧ f a = some b := by
  intro l
  induction l with
  | nil => intro ys h i hi; simp at hi
  | cons a t ih =>
    intro ys h i hi
    simp only [optMapM] at h
    cases hfa : f a with
    | none => rw [hfa] at h; simp at h
    | some b =>
      rw [hfa] at h
      cases hrest : optMapM f t with
      | none => rw [hrest] at h; simp at h
      | some bs =>
        rw [hrest] at h
        simp at h
        subst h
        cases i with
        | zero => exact ⟨a, b, rfl, rfl, hfa⟩
        | succ j =>
          simp at hi
          obtain ⟨a', b', h1, h2, h3⟩ := ih hrest j hi
          exact ⟨a', b', h1, h2, h3⟩

theorem optMapM_mem {f : α → Option β} :
    ∀ {l : List α} {ys : List β}, optMapM f l = some ys →
      ∀ b ∈ ys, ∃ a ∈ l, f a = some b := by
  intro l
  induction l with
  | nil => intro ys h b hb; simp [optMapM] at h; subst h; simp at hb
  | cons a t ih =>
    intro ys h b hb
    simp only [optMapM] at h
    cases hfa : f a with
    | none => rw [hfa] at h; simp at h
    | some b0 =>
      rw [hfa] at h
      cases hrest : optMapM f t with
      | none => rw [hrest] at h; simp at h
      | some bs =>
        rw [hrest] at h
        simp at h
        subst h
        rcases List.mem_cons.mp hb with hb | hb
        · exact ⟨a, List.mem_cons_self a t, hb ▸ hfa⟩
        · obtain ⟨a', ha', hfa'⟩ := ih hrest b hb
          exact ⟨a', List.mem_cons_of_mem a ha', hfa'⟩

theorem optMapM_isSome {f : α → Option β} :
    ∀ {l : List α}, (∀ a ∈ l, (f a).isSome) → ∃ ys, optMapM f l = some ys := by
  intro l
  induction l with
  | nil => intro _; exact ⟨[], rfl⟩
  | cons a t ih =>
    intro h
    have ha := h a (List.mem_cons_self a t)
    obtain ⟨b, hb⟩ := Option.isSome_iff_exists.mp ha
    obtain ⟨bs, hbs⟩ := ih (fun x hx => h x (List.mem_cons_of_mem a hx))
    exact ⟨b :: bs, by simp [optMapM, hb, hbs]⟩

theorem optMapM_congr {f g : α → Option β} :
    ∀ {l : List α}, (∀ a ∈ l, f a = g a) → optMapM f l = optMapM g l := by
  intro l
  induction l with
  | nil => intro _; rfl
  | cons a t ih =>
    intro h
    simp only [optMapM, h a (List.mem_cons_self a t),
      ih (fun x hx => h x (List.mem_cons_of_mem a hx))]

theorem mem_trueIndices {mask : List Bool} {i : ℕ} :
    i ∈ trueIndices mask ↔ i < mask.length ∧ mask.getD i false = true := by
  simp [trueIndices, List.mem_filter, List.mem_range]

theorem trueIndices_lt {mask : List Bool} {i : ℕ} (h : i ∈ trueIndices mask) :
    i < mask.length := (mem_trueIndices.mp h).1

theorem mem_insertIdx {v : ℕ → ℚ} {i a : ℕ} :
    ∀ {l : List ℕ}, a ∈ insertIdx v i l ↔ a = i ∨ a ∈ l := by
  intro l
  induction l with
  | nil => simp [insertIdx]
  | cons j t ih =>
    simp only [insertIdx]
    by_cases h : v i ≤ v j
    · simp [h]
    · simp only [h, if_false, List.mem_cons, ih]
      tauto

theorem mem_argsortIdx {v : ℕ → ℚ} {a : ℕ} :
    ∀ {l : List ℕ}, a ∈ argsortIdx v l ↔ a ∈ l := by
  intro l
  induction l with
  | nil => simp [argsortIdx]
  | cons j t ih =>
    have : argsortIdx v (j :: t) = insertIdx v j (argsortIdx v t) := rfl
    rw [this, mem_insertIdx]
    simp [ih]

theorem insertIdx_length {v : ℕ → ℚ} {i : ℕ} :
    ∀ {l : List ℕ}, (insertIdx v i l).length = l.length + 1 := by
  intro l
  induction l with
  | nil => rfl
  | cons j t ih =>
    simp only [insertIdx]
    by_cases h : v i ≤ v j
    · simp [h]
    · simp [h, ih]

theorem argsortIdx_length {v : ℕ → ℚ} :
    ∀ {l : List ℕ}, (argsortIdx v l).length = l.length := by
  intro l
  induction l with
  | nil => rfl
  | cons j t ih =>
    have h : argsortIdx v (j :: t) = insertIdx v j (argsortIdx v t) := rfl
    rw [h, insertIdx_length, ih]
    rfl

theorem gapSplit_flatten (v : ℕ → ℚ) (r : ℚ) :
    ∀ l : List ℕ, (gapSplit v r l).flatten = l := by
  intro l
  induction l using gapSplit.induct v r with
  | case1 => rfl
  | case2 i => rfl
  | case3 i j rest hsplit ih => rw [hsplit] at ih; simp at ih
  | case4 i j rest g gs hsplit hlt ih =>
    rw [show gapSplit v r (i :: j :: rest) = (i :: g) :: gs from by
      simp [gapSplit, hsplit, hlt]]
    rw [hsplit] at ih
    simp only [List.flatten_cons] at ih ⊢
    rw [List.cons_append, ih]
  | case5 i j rest g gs hsplit hlt ih =>
    rw [show gapSplit v r (i :: j :: rest) = [i] :: g :: gs from by
      simp [gapSplit, hsplit, hlt]]
    rw [hsplit] at ih
    simp only [List.flatten_cons] at ih ⊢
    rw [List.singleton_append, ih]

theorem gapSplit_ne_nil (v : ℕ → ℚ) (r : ℚ) :
    ∀ l : List ℕ, ∀ g ∈ gapSplit v r l, g ≠ [] := by
  intro l
  induction l using gapSplit.induct v r with
  | case1 => intro g hg; simp [gapSplit] at hg
  | case2 i => intro g hg; simp [gapSplit] at hg; simp [hg]
  | case3 i j rest hsplit ih =>
    intro g hg
    rw [show gapSplit v r (i :: j :: rest) = [[i]] from by
      simp [gapSplit, hsplit]] at hg
    simp at hg
    simp [hg]
  | case4 i j rest g0 gs hsplit hlt ih =>
    intro g hg
    rw [show gapSplit v r (i :: j :: rest) = (i :: g0) :: gs from by
      simp [gapSplit, hsplit, hlt]] at hg
    rcases List.mem_cons.mp hg with hg | hg
    · simp [hg]
    · exact ih g (hsplit ▸ List.mem_cons_of_mem g0 hg)
  | case5 i j rest g0 gs hsplit hlt ih =>
    intro g hg
    rw [show gapSplit v r (i :: j :: rest) = [i] :: g0 :: gs from by
      simp [gapSplit, hsplit, hlt]] at hg
    rcases List.mem_cons.mp hg with hg | hg
    · simp [hg]
    · exact ih g (hsplit ▸ hg)

theorem gapSplit_nil_iff (v : ℕ → ℚ) (r : ℚ) :
    ∀ l : List ℕ, gapSplit v r l = [] ↔ l = [] := by
  intro l
  constructor
  · intro h
    have := gapSplit_flatten v r l
    rw [h] at this
    simpa using this.symm
  · intro h; subst h; rfl

theorem cluster_1d_mem_lt {values : List ℚ} {r : ℚ} {g : List ℕ} {i : ℕ}
    (hg : g ∈ cluster_1d values r) (hi : i ∈ g) : i < values.length := by
  have hmem : i ∈ (gapSplit (fun i => values.getD i 0) r
      (argsortIdx (fun i => values.getD i 0) (List.range values.length))).flatten :=
    List.mem_flatten.mpr ⟨g, hg, hi⟩
  rw [gapSplit_flatten] at hmem
  rw [mem_argsortIdx] at hmem
  exact List.mem_range.mp hmem

theorem cluster_1d_ne_nil {values : List ℚ} {r : ℚ} {g : List ℕ}
    (hg : g ∈ cluster_1d values r) : g ≠ [] :=
  gapSplit_ne_nil _ r _ g hg

theorem cluster_1d_nil_iff {values : List ℚ} {r : ℚ} :
    cluster_1d values r = [] ↔ values = [] := by
  unfold cluster_1d
  rw [gapSplit_nil_iff]
  constructor
  · intro h
    have h2 := @argsortIdx_length (fun i => values.getD i 0)
      (List.range values.length)
    rw [h] at h2
    simp at h2
    exact List.length_eq_zero.mp h2.symm
  · intro h; subst h; rfl

theorem argmaxFirstIdx_lt :
    ∀ {l : List ℚ}, l ≠ [] → argmaxFirstIdx l < l.length := by
  intro l
  induction l using argmaxFirstIdx.induct with
  | case1 => intro h; exact absurd rfl h
  | case2 x => intro _; simp [argmaxFirstIdx]
  | case3 x y t k h ih =>
    intro _
    have h' : x < (y :: t).getD (argmaxFirstIdx (y :: t)) 0 := h
    rw [show argmaxFirstIdx (x :: y :: t) = argmaxFirstIdx (y :: t) + 1 from by
      simp only [argmaxFirstIdx]; rw [if_pos h']]
    have h2 := ih (by simp)
    simpa using Nat.succ_lt_succ h2
  | case4 x y t k h ih =>
    intro _
    have h' : ¬ x < (y :: t).getD (argmaxFirstIdx (y :: t)) 0 := h
    rw [show argmaxFirstIdx (x :: y :: t) = 0 from by
      simp only [argmaxFirstIdx]; rw [if_neg h']]
    simp

theorem argmaxFirstIdx_max :
    ∀ {l : List ℚ} (j : ℕ), j < l.length →
      l.getD j 0 ≤ l.getD (argmaxFirstIdx l) 0 := by
  intro l
  induction l using argmaxFirstIdx.induct with
  | case1 => intro j hj; simp at hj
  | case2 x =>
    intro j hj
    simp at hj
    subst hj
    simp [argmaxFirstIdx]
  | case3 x y t k h ih =>
    intro j hj
    have h' : x < (y :: t).getD (argmaxFirstIdx (y :: t)) 0 := h
    rw [show argmaxFirstIdx (x :: y :: t) = argmaxFirstIdx (y :: t) + 1 from by
      simp only [argmaxFirstIdx]; rw [if_pos h']]
    cases j with
    | zero => simpa using le_of_lt h'
    | succ j' =>
      have hj' : j' < (y :: t).length := by simpa using hj
      simpa using ih j' hj'
  | case4 x y t k h ih =>
    intro j hj
    have h' : ¬ x < (y :: t).getD (argmaxFirstIdx (y :: t)) 0 := h
    rw [show argmaxFirstIdx (x :: y :: t) = 0 from by
      simp only [argmaxFirstIdx]; rw [if_neg h']]
    push_neg at h'
    cases j with
    | zero => simp
    | succ j' =>
      have hj' : j' < (y :: t).length := by simpa using hj
      have h2 := ih j' hj'
      simp only [List.getD_cons_succ, List.getD_cons_zero]
      exact le_trans h2 h' 

theorem maxBySnr_isSome :
    ∀ {l : List Peak}, l ≠ [] → (maxBySnr l).isSome := by
  intro l
  induction l using maxBySnr.induct with
  | case1 => intro h; exact absurd rfl h
  | case2 p => intro _; simp [maxBySnr]
  | case3 p q t hm ih =>
    intro _
    have h2 := ih (by simp)
    rw [hm] at h2
    simp at h2
  | case4 p q t m hm ih =>
    intro _
    simp [maxBySnr, hm]

theorem maxBySnr_mem :
    ∀ {l : List Peak} {m : Peak}, maxBySnr l = some m → m ∈ l := by
  intro l
  induction l using maxBySnr.induct with
  | case1 => intro m h; simp [maxBySnr] at h
  | case2 p => intro m h; simp [maxBySnr] at h; simp [h]
  | case3 p q t hm ih =>
    intro m h
    rw [maxBySnr, hm] at h
    simp at h
    simp [h]
  | case4 p q t m0 hm ih =>
    intro m h
    rw [maxBySnr, hm] at h
    simp at h
    by_cases hlt : p.snr < m0.snr
    · rw [if_pos hlt] at h
      subst h
      exact List.mem_cons_of_mem p (ih hm)
    · rw [if_neg hlt] at h
      simp [h]

theorem maxBySnr_le :
    ∀ {l : List Peak} {m : Peak}, maxBySnr l = some m →
      ∀ p ∈ l, p.snr ≤ m.snr := by
  intro l
  induction l using maxBySnr.induct with
  | case1 => intro m h; simp [maxBySnr] at h
  | case2 p => intro m h x hx; simp [maxBySnr] at h; simp at hx; simp [hx, h]
  | case3 p q t hm ih =>
    intro m h
    rw [maxBySnr, hm] at h
    have h2 := @maxBySnr_isSome (q :: t) (by simp)
    rw [hm] at h2
    simp at h2
  | case4 p q t m0 hm ih =>
    intro m h x hx
    rw [maxBySnr, hm] at h
    simp at h
    rcases List.mem_cons.mp hx with hx | hx
    · subst hx
      by_cases hlt : x.snr < m0.snr
      · rw [if_pos hlt] at h; subst h; exact le_of_lt hlt
      · rw [if_neg hlt] at h; subst h; exact le_refl _
    · have hxm0 : x.snr ≤ m0.snr := ih hm x hx
      by_cases hlt : p.snr < m0.snr
      · rw [if_pos hlt] at h; subst h; exact hxm0
      · rw [if_neg hlt] at h
        subst h
        push_neg at hlt
        exact le_trans hxm0 hlt

theorem nsegOf_pos (periods : List ℚ) (tobs w : ℚ) :
    1 ≤ nsegOf periods tobs w := by
  unfold nsegOf
  have h : (1 : ℤ) ≤ max 1 (qtrunc ((tobs / periods.headD 0 - tobs / periods.getLastD 0) / w)) :=
    le_max_left _ _
  omega

theorem segment_cons (rlog : ℚ → ℚ) (p0 : ℚ) (rest : List ℚ) (tobs w : ℚ) :
    segment rlog (p0 :: rest) tobs w =
      optMapM
        (fun b =>
          ((p0 :: rest).get? ((b.1 + b.2) / 2)).bind fun pmid =>
            some ⟨b.1, b.2, (b.1 + b.2) / 2, pmid, rlog pmid⟩)
        (segBounds (p0 :: rest).length (nsegOf (p0 :: rest) tobs w)
          (slenOf (p0 :: rest) tobs w)) := rfl

theorem segBounds_eq (n slen : ℕ) (m : ℕ) :
    segBounds n (m + 1) slen =
      (List.range m).map (fun i => (i * slen, (i + 1) * slen)) ++ [(m * slen, n)] := by
  unfold segBounds
  rw [List.range_succ, List.map_append]
  simp

theorem segBounds_length (n slen nseg : ℕ) (h : 1 ≤ nseg) :
    (segBounds n nseg slen).length = nseg := by
  obtain ⟨m, rfl⟩ := Nat.exists_eq_add_of_le h
  rw [Nat.add_comm] at *
  rw [segBounds_eq]
  simp

theorem segBounds_get? (n slen : ℕ) (m : ℕ) (k : ℕ) (hk : k < m + 1) :
    (segBounds n (m + 1) slen).get? k =
      some (k * slen, if k = m then n else (k + 1) * slen) := by
  rw [segBounds_eq]
  by_cases h : k < m
  · rw [List.get?_append (by simpa using h), List.get?_map, List.get?_range h]
    simp [Nat.ne_of_lt h]
  · have hkm : k = m := by omega
    subst hkm
    rw [List.get?_append_right (by simp)]
    simp

theorem segBounds_mem (n slen : ℕ) (m : ℕ) {b : ℕ × ℕ}
    (hb : b ∈ segBounds n (m + 1) slen) :
    (∃ k, k < m ∧ b = (k * slen, (k + 1) * slen)) ∨ b = (m * slen, n) := by
  rw [segBounds_eq] at hb
  rcases List.mem_append.mp hb with hb | hb
  · obtain ⟨k, hk, hkb⟩ := List.mem_map.mp hb
    exact Or.inl ⟨k, List.mem_range.mp hk, hkb.symm⟩
  · simp at hb
    exact Or.inr (by simp [hb])

theorem segBounds_imid_lt (n slen : ℕ) (m : ℕ) (hn : 1 ≤ n)
    (hsl : (m + 1) * slen ≤ n) {b : ℕ × ℕ}
    (hb : b ∈ segBounds n (m + 1) slen) : (b.1 + b.2) / 2 < n := by
  rcases segBounds_mem n slen m hb with ⟨k, hk, rfl⟩ | rfl
  · simp only
    rcases Nat.eq_zero_or_pos slen with hs | hs
    · simp [hs]; omega
    · have h1 : k * slen < (k + 1) * slen :=
        Nat.mul_lt_mul_of_lt_of_le (Nat.lt_succ_self k) (le_refl slen) hs
      have h2 : (k + 1) * slen ≤ (m + 1) * slen :=
        Nat.mul_le_mul_right slen (by omega)
      have h3 : (k * slen + (k + 1) * slen) / 2 < (k + 1) * slen := by
        apply Nat.div_lt_of_lt_mul
        omega
      omega
  · simp only
    have hs : m * slen < n := by
      rcases Nat.eq_zero_or_pos slen with hs | hs
      · simp [hs]; omega
      · have h1 : m * slen < (m + 1) * slen :=
          Nat.mul_lt_mul_of_lt_of_le (Nat.lt_succ_self m) (le_refl slen) hs
        omega
    apply Nat.div_lt_of_lt_mul
    omega

theorem segment_spec (rlog : ℚ → ℚ) (tobs w : ℚ) {periods : List ℚ}
    (h : periods ≠ []) :
    ∃ segs, segment rlog periods tobs w = some segs ∧
      segs.length = nsegOf periods tobs w ∧
      ∀ k, k < nsegOf periods tobs w →
        ∃ s : Seg, segs.get? k = some s ∧
          s.istart = k * slenOf periods tobs w ∧
          s.iend = (if k = nsegOf periods tobs w - 1 then periods.length
                    else (k + 1) * slenOf periods tobs w) := by
  obtain ⟨p0, rest, rfl⟩ := List.exists_cons_of_ne_nil h
  rw [segment_cons]
  set P := p0 :: rest with hP
  set nseg := nsegOf P tobs w with hnseg
  set slen := slenOf P tobs w with hslen
  obtain ⟨m, hm⟩ : ∃ m, nseg = m + 1 := by
    have := nsegOf_pos P tobs w
    exact ⟨nseg - 1, by omega⟩
  have hn1 : 1 ≤ P.length := by simp [hP]
  have hsl : (m + 1) * slen ≤ P.length := by
    rw [← hm, hslen, slenOf, ← hnseg, Nat.mul_comm]
    exact Nat.div_mul_le_self P.length nseg
  have hsome : ∀ b ∈ segBounds P.length nseg slen,
      ((fun b : ℕ × ℕ =>
          (P.get? ((b.1 + b.2) / 2)).bind fun pmid =>
            some (⟨b.1, b.2, (b.1 + b.2) / 2, pmid, rlog pmid⟩ : Seg)) b).isSome := by
    intro b hb
    rw [hm] at hb
    have hlt := segBounds_imid_lt P.length slen m hn1 hsl hb
    cases hpm : P.get? ((b.1 + b.2) / 2) with
    | none =>
      rw [List.get?_eq_none] at hpm
      omega
    | some pmid =>
      rw [List.get?_eq_getElem?] at hpm
      simp [hpm]
  obtain ⟨segs, hsegs⟩ := optMapM_isSome hsome
  refine ⟨segs, hsegs, ?_, ?_⟩
  · rw [optMapM_length hsegs, hm, segBounds_length _ _ _ (by omega)]
  · intro k hk
    have hk' : k < (segBounds P.length nseg slen).length := by
      rw [hm, segBounds_length _ _ _ (by omega)]; omega
    obtain ⟨b, s, hb, hs, hfb⟩ := optMapM_get? hsegs k hk'
    have hbval : b = (k * slen, if k = m then P.length else (k + 1) * slen) := by
      have := segBounds_get? P.length slen m k (by omega)
      rw [← hm] at this
      rw [this] at hb
      exact (Option.some.inj hb).symm
    cases hpm : P.get? ((b.1 + b.2) / 2) with
    | none => rw [hpm] at hfb; simp at hfb
    | some pmid =>
      rw [hpm] at hfb
      simp at hfb
      refine ⟨s, hs, ?_, ?_⟩
      · rw [← hfb]; simp [hbval]
      · rw [← hfb]
        simp only [hbval]
        have hmm : nseg - 1 = m := by omega
        rw [hmm]

theorem get?_getD {α : Type _} :
    ∀ {l : List α} {c : ℕ}, c < l.length → ∀ d : α, l.get? c = some (l.getD c d) := by
  intro l
  induction l with
  | nil => intro c hc; simp at hc
  | cons a t ih =>
    intro c hc d
    cases c with
    | zero => simp
    | succ c' =>
      have hc' : c' < t.length := by simpa using hc
      simpa using ih hc' d

theorem getD_mem {α : Type _} :
    ∀ {l : List α} {c : ℕ}, c < l.length → ∀ d : α, l.getD c d ∈ l := by
  intro l
  induction l with
  | nil => intro c hc; simp at hc
  | cons a t ih =>
    intro c hc d
    cases c with
    | zero => simp
    | succ c' =>
      have hc' : c' < t.length := by simpa using hc
      simpa using Or.inr (ih hc' d)

theorem map_getD {α β : Type _} (g : α → β) :
    ∀ {l : List α} {i : ℕ}, i < l.length →
      ∀ (d : β) (d₀ : α), (l.map g).getD i d = g (l.getD i d₀) := by
  intro l
  induction l with
  | nil => intro i hi; simp at hi
  | cons a t ih =>
    intro i hi d d₀
    cases i with
    | zero => simp
    | succ i' =>
      have hi' : i' < t.length := by simpa using hi
      simpa using ih hi' d d₀

theorem optMapM_eq_map {f : α → Option β} {g : α → β} :
    ∀ {l : List α}, (∀ a ∈ l, f a = some (g a)) → optMapM f l = some (l.map g) := by
  intro l
  induction l with
  | nil => intro _; rfl
  | cons a t ih =>
    intro h
    simp only [optMapM, h a (List.mem_cons_self a t),
      ih (fun x hx => h x (List.mem_cons_of_mem a hx)), Option.some_bind,
      List.map_cons]

theorem maskOf_length {col thr : List ℚ} (h : col.length = thr.length) :
    (maskOf col thr).length = col.length := by
  simp [maskOf, h]

theorem maskOf_getD {col thr : List ℚ} {j : ℕ} (hj : j < col.length)
    (h : col.length = thr.length) :
    (maskOf col thr).getD j false = decide (thr.getD j 0 < col.getD j 0) := by
  have hj' : j < thr.length := h ▸ hj
  have hm : j < (maskOf col thr).length := by rw [maskOf_length h]; exact hj
  unfold maskOf at *
  rw [List.getD_eq_getElem _ _ hm, List.getElem_zipWith,
    List.getD_eq_getElem _ _ hj, List.getD_eq_getElem _ _ hj']

theorem mkPeakOfCluster_eq (pg : Pgram) (iwidth : ℕ) (w : ℚ) (col : List ℚ)
    (sigIdx : List ℕ) (cli : List ℕ) (hne : cli ≠ [])
    (hcl : ∀ c ∈ cli, c < sigIdx.length)
    (hsig : ∀ j ∈ sigIdx, j < col.length ∧ j < pg.periods.length) :
    mkPeakOfCluster pg iwidth w col sigIdx cli =
      some (peakFormula pg iwidth w col sigIdx cli) := by
  unfold mkPeakOfCluster
  set pidxs := cli.map (fun c => sigIdx.getD c 0) with hpidxs
  have h1 : optMapM (fun c => sigIdx.get? c) cli = some pidxs :=
    optMapM_eq_map (fun c hc => get?_getD (hcl c hc) 0)
  rw [h1, Option.some_bind]
  have hpmem : ∀ j ∈ pidxs, j ∈ sigIdx := by
    intro j hj
    obtain ⟨c, hc, rfl⟩ := List.mem_map.mp hj
    exact getD_mem (hcl c hc) 0
  set svals := pidxs.map (fun j => col.getD j 0) with hsvals
  have h2 : optMapM (fun j => pg.periods.get? j) pidxs =
      some (pidxs.map (fun j => pg.periods.getD j 0)) :=
    optMapM_eq_map (fun j hj => get?_getD (hsig j (hpmem j hj)).2 0)
  have h3 : optMapM (fun j => col.get? j) pidxs = some svals :=
    optMapM_eq_map (fun j hj => get?_getD (hsig j (hpmem j hj)).1 0)
  rw [h2, Option.some_bind, h3, Option.some_bind]
  have hpne : pidxs ≠ [] := by
    intro hcon
    exact hne (List.map_eq_nil_iff.mp hcon)
  have hsne : svals ≠ [] := by
    intro hcon
    exact hpne (List.map_eq_nil_iff.mp hcon)
  have himax : argmaxFirstIdx svals < svals.length := argmaxFirstIdx_lt hsne
  have hlen1 : svals.length = pidxs.length := by simp [hsvals]
  have himax' : argmaxFirstIdx svals < pidxs.length := hlen1 ▸ himax
  have h4 : (pidxs.map (fun j => pg.periods.getD j 0)).get? (argmaxFirstIdx svals) =
      some (pg.periods.getD (pidxs.getD (argmaxFirstIdx svals) 0) 0) := by
    rw [get?_getD (by simpa using himax') 0]
    rw [map_getD _ himax' 0 0]
  have h5 : svals.get? (argmaxFirstIdx svals) =
      some (svals.getD (argmaxFirstIdx svals) 0) := get?_getD himax 0
  simp only []
  rw [h4, Option.some_bind, h5, Option.some_bind]
  rfl

theorem find_peaks_single_spec (rlog : ℚ → ℚ)
    (polyfit : ℕ → List ℚ → List ℚ → List ℚ) (pg : Pgram) (iwidth : ℕ)
    (boundaries : List Seg) (min_segments : ℕ) (snr_min nsigma radius : ℚ)
    (polydeg : ℕ) {col : List ℚ} (hcol : columnOf pg.snrs iwidth = some col)
    {w : ℚ} (hw : pg.widths.get? iwidth = some w) {stats : List StatRow}
    (hstats : segment_stats col boundaries = some stats)
    (hlen : col.length = pg.periods.length) :
    find_peaks_single rlog polyfit pg iwidth boundaries min_segments snr_min
        nsigma radius polydeg =
      some ⟨stats,
        (policyOf rlog polyfit boundaries stats min_segments snr_min nsigma polydeg).2,
        pg.periods.map
          (policyOf rlog polyfit boundaries stats min_segments snr_min nsigma polydeg).1,
        (clsOf pg col
            (pg.periods.map
              (policyOf rlog polyfit boundaries stats min_segments snr_min nsigma polydeg).1)
            radius).map
          (peakFormula pg iwidth w col
            (sigIdxOf col
              (pg.periods.map
                (policyOf rlog polyfit boundaries stats min_segments snr_min nsigma polydeg).1)))⟩ := by
  unfold find_peaks_single
  rw [hcol, Option.some_bind, hw, Option.some_bind, hstats, Option.some_bind]
  set tp := policyOf rlog polyfit boundaries stats min_segments snr_min nsigma polydeg with htp
  set thr := pg.periods.map tp.1 with hthr
  have hthrlen : col.length = thr.length := by simp [hthr, hlen]
  have hgt : npGT col thr = some (maskOf col thr) := by
    unfold npGT maskOf
    rw [if_pos hthrlen]
  have hzeta :
      (let tp' := tp;
        let threshold := List.map tp'.1 pg.periods;
        (npGT col threshold).bind fun mask =>
          let sigIdx := trueIndices mask;
          if sigIdx.isEmpty = true then
            some (⟨stats, tp'.2, threshold, []⟩ : FPSRes)
          else
            (npBoolIndex pg.periods mask).bind fun sigPeriods =>
              let dbi := List.map (fun p => pg.tobs / p) sigPeriods;
              (optMapM (mkPeakOfCluster pg iwidth w col sigIdx)
                  (cluster_1d dbi radius)).bind fun peaks =>
                some (⟨stats, tp'.2, threshold, peaks⟩ : FPSRes)) =
      ((npGT col thr).bind fun mask =>
        if (trueIndices mask).isEmpty = true then
          some (⟨stats, tp.2, thr, []⟩ : FPSRes)
        else
          (npBoolIndex pg.periods mask).bind fun sigPeriods =>
            (optMapM (mkPeakOfCluster pg iwidth w col (trueIndices mask))
                (cluster_1d (List.map (fun p => pg.tobs / p) sigPeriods) radius)).bind
              fun peaks => some (⟨stats, tp.2, thr, peaks⟩ : FPSRes)) := rfl
  rw [hzeta, hgt, Option.some_bind]
  rw [show trueIndices (maskOf col thr) = sigIdxOf col thr from rfl]
  have hmasklen : (maskOf col thr).length = col.length := maskOf_length hthrlen
  have hsigmem : ∀ j ∈ sigIdxOf col thr, j < col.length ∧ j < pg.periods.length := by
    intro j hj
    have hj2 := @trueIndices_lt (maskOf col thr) j hj
    rw [hmasklen] at hj2
    exact ⟨hj2, hlen ▸ hj2⟩
  by_cases hemp : (sigIdxOf col thr).isEmpty
  · rw [if_pos hemp]
    have hnil : sigIdxOf col thr = [] := List.isEmpty_iff.mp hemp
    have hclsnil : clsOf pg col thr radius = [] := by
      unfold clsOf
      rw [hnil]
      rfl
    rw [hclsnil]
    rfl
  · rw [if_neg hemp]
    have hbool : npBoolIndex pg.periods (maskOf col thr) =
        some ((sigIdxOf col thr).map (fun i => pg.periods.getD i 0)) := by
      unfold npBoolIndex
      rw [if_pos (by rw [hmasklen, hlen])]
      rfl
    rw [hbool, Option.some_bind]
    have hdbi : ((sigIdxOf col thr).map (fun i => pg.periods.getD i 0)).map
          (fun p => pg.tobs / p) =
        (sigIdxOf col thr).map (fun i => pg.tobs / pg.periods.getD i 0) := by
      rw [List.map_map]
      rfl
    rw [hdbi]
    rw [show cluster_1d ((sigIdxOf col thr).map (fun i => pg.tobs / pg.periods.getD i 0))
          radius = clsOf pg col thr radius from rfl]
    have hdbilen : ((sigIdxOf col thr).map
        (fun i => pg.tobs / pg.periods.getD i 0)).length = (sigIdxOf col thr).length := by
      simp
    have hpeaks : optMapM (mkPeakOfCluster pg iwidth w col (sigIdxOf col thr))
        (clsOf pg col thr radius) =
        some ((clsOf pg col thr radius).map
          (peakFormula pg iwidth w col (sigIdxOf col thr))) := by
      apply optMapM_eq_map
      intro cli hcli
      apply mkPeakOfCluster_eq pg iwidth w col (sigIdxOf col thr) cli
        (cluster_1d_ne_nil hcli)
        (fun c hc => by
          have hc2 := cluster_1d_mem_lt hcli hc
          rwa [hdbilen] at hc2)
        hsigmem
    rw [hpeaks, Option.some_bind]

theorem detection_mk_spec (peaks : List Peak) (pg : Pgram) (sw : ℚ)
    (hne : peaks ≠ []) (hrows : pg.snrs.length = pg.periods.length) :
    detection_mk peaks pg sw =
      some
        ⟨(maxBySnr peaks).getD peak0, peaks,
          (detIdxOf pg ((maxBySnr peaks).getD peak0).period sw).map
            (fun i => pg.periods.getD i 0),
          (detIdxOf pg ((maxBySnr peaks).getD peak0).period sw).map
            (fun i => pg.snrs.getD i []),
          pg.widths, pg.metadata⟩ := by
  obtain ⟨top, htop⟩ := Option.isSome_iff_exists.mp (maxBySnr_isSome hne)
  have htopD : (maxBySnr peaks).getD peak0 = top := by rw [htop]; rfl
  rw [htopD]
  unfold detection_mk
  rw [htop, Option.some_bind]
  have hzeta :
      (let dbis := pg.periods.map (fun p => pg.tobs / p)
       let mask := dbis.map (fun d => decide (|d - pg.tobs / top.period| < sw / 2))
       let idx := trueIndices mask
       (optMapM (fun i => pg.periods.get? i) idx).bind fun period_trials =>
       (optMapM (fun i => pg.snrs.get? i) idx).bind fun snr_trials =>
       some (⟨top, peaks, period_trials, snr_trials, pg.widths, pg.metadata⟩ : Detection)) =
      ((optMapM (fun i => pg.periods.get? i) (detIdxOf pg top.period sw)).bind
        fun period_trials =>
          (optMapM (fun i => pg.snrs.get? i) (detIdxOf pg top.period sw)).bind
            fun snr_trials =>
              some (⟨top, peaks, period_trials, snr_trials, pg.widths,
                pg.metadata⟩ : Detection)) := rfl
  rw [hzeta]
  have hidx : ∀ i ∈ detIdxOf pg top.period sw, i < pg.periods.length := by
    intro i hi
    have hi2 := trueIndices_lt hi
    simpa using hi2
  have h1 : optMapM (fun i => pg.periods.get? i) (detIdxOf pg top.period sw) =
      some ((detIdxOf pg top.period sw).map (fun i => pg.periods.getD i 0)) :=
    optMapM_eq_map (fun i hi => get?_getD (hidx i hi) 0)
  have h2 : optMapM (fun i => pg.snrs.get? i) (detIdxOf pg top.period sw) =
      some ((detIdxOf pg top.period sw).map (fun i => pg.snrs.getD i [])) :=
    optMapM_eq_map (fun i hi => get?_getD (hrows ▸ hidx i hi) [])
  rw [h1, Option.some_bind, h2, Option.some_bind]

theorem find_peaks_spec (rlog : ℚ → ℚ)
    (polyfit : ℕ → List ℚ → List ℚ → List ℚ) (pg : Pgram)
    (segment_dftbins_length : ℚ) (min_segments : ℕ)
    (snr_min nsigma peak_clustering_radius : ℚ) (polydeg : ℕ) (sw : ℚ)
    {pool : List Peak}
    (hp : pooledPeaks rlog polyfit pg segment_dftbins_length min_segments
      snr_min nsigma peak_clustering_radius polydeg = some pool)
    (hrows : pg.snrs.length = pg.periods.length) :
    find_peaks rlog polyfit pg segment_dftbins_length min_segments snr_min
        nsigma peak_clustering_radius polydeg sw =
      some
        ((cluster_1d (pool.map (fun pk => pg.tobs / pk.period))
            peak_clustering_radius).map (detFormula pg sw pool)) := by
  unfold find_peaks
  rw [hp, Option.some_bind]
  have hzeta :
      (let dbi := pool.map (fun pk => pg.tobs / pk.period)
       optMapM
        (fun cli =>
          (optMapM (fun ix => pool.get? ix) cli).bind fun peak_group =>
          detection_mk peak_group pg sw)
        (cluster_1d dbi peak_clustering_radius)) =
      optMapM
        (fun cli =>
          (optMapM (fun ix => pool.get? ix) cli).bind fun peak_group =>
          detection_mk peak_group pg sw)
        (cluster_1d (pool.map (fun pk => pg.tobs / pk.period))
          peak_clustering_radius) := rfl
  rw [hzeta]
  apply optMapM_eq_map
  intro cli hcli
  have hlt : ∀ c ∈ cli, c < pool.length := by
    intro c hc
    have hc2 := cluster_1d_mem_lt hcli hc
    simpa using hc2
  have hgrp : optMapM (fun ix => pool.get? ix) cli =
      some (cli.map (fun ix => pool.getD ix peak0)) :=
    optMapM_eq_map (fun ix hix => get?_getD (hlt ix hix) peak0)
  rw [hgrp, Option.some_bind]
  have hgne : cli.map (fun ix => pool.getD ix peak0) ≠ [] := by
    intro hcon
    exact cluster_1d_ne_nil hcli (List.map_eq_nil_iff.mp hcon)
  rw [detection_mk_spec _ pg sw hgne hrows]
  rfl

theorem argmax_ge_mem (l : List ℚ) :
    ∀ v ∈ l, v ≤ l.getD (argmaxFirstIdx l) 0 := by
  intro v hv
  obtain ⟨t, ht, rfl⟩ := List.mem_iff_getElem.mp hv
  have h := argmaxFirstIdx_max t ht
  rwa [List.getD_eq_getElem _ _ ht] at h

theorem mem_sigIdxOf {col thr : List ℚ} (h : col.length = thr.length) {j : ℕ} :
    j ∈ sigIdxOf col thr ↔ j < col.length ∧ thr.getD j 0 < col.getD j 0 := by
  unfold sigIdxOf
  rw [mem_trueIndices, maskOf_length h]
  constructor
  · rintro ⟨hj, hm⟩
    rw [maskOf_getD hj h] at hm
    exact ⟨hj, of_decide_eq_true hm⟩
  · rintro ⟨hj, hm⟩
    exact ⟨hj, by rw [maskOf_getD hj h]; exact decide_eq_true hm⟩

theorem policyOf_fst_ge (rlog : ℚ → ℚ)
    (polyfit : ℕ → List ℚ → List ℚ → List ℚ) (boundaries : List Seg)
    (stats : List StatRow) (min_segments : ℕ) (snr_min nsigma : ℚ)
    (polydeg : ℕ) (p : ℚ) :
    snr_min ≤
      (policyOf rlog polyfit boundaries stats min_segments snr_min nsigma polydeg).1 p := by
  unfold policyOf
  by_cases h : boundaries.length < min_segments
  · rw [if_pos h]
    exact le_refl _
  · rw [if_neg h]
    exact le_max_right _ _

theorem map_const_eq_replicate {α : Type _} (c : ℚ) :
    ∀ l : List α, l.map (fun _ => c) = List.replicate l.length c := by
  intro l
  induction l with
  | nil => rfl
  | cons a t ih => simp [ih, List.replicate_succ]

theorem peakFormula_spec (pg : Pgram) (iwidth : ℕ) (w : ℚ) (col : List ℚ)
    (thr : List ℚ) (radius : ℚ) (cli : List ℕ)
    (hcli : cli ∈ clsOf pg col thr radius) :
    ∃ j, j ∈ sigIdxOf col thr ∧
      (peakFormula pg iwidth w col (sigIdxOf col thr) cli).period =
        pg.periods.getD j 0 ∧
      (peakFormula pg iwidth w col (sigIdxOf col thr) cli).snr = col.getD j 0 ∧
      ∀ c ∈ cli, col.getD ((sigIdxOf col thr).getD c 0) 0 ≤
        (peakFormula pg iwidth w col (sigIdxOf col thr) cli).snr := by
  have hmem : ∀ c ∈ cli, c < (sigIdxOf col thr).length := by
    intro c hc
    have h := cluster_1d_mem_lt hcli hc
    simpa using h
  have hne : cli ≠ [] := cluster_1d_ne_nil hcli
  set sig := sigIdxOf col thr with hsig
  set pidxs := cli.map (fun c => sig.getD c 0) with hpidxs
  set svals := pidxs.map (fun j => col.getD j 0) with hsvals
  set m := argmaxFirstIdx svals with hm
  have hpne : pidxs ≠ [] := fun hcon => hne (List.map_eq_nil_iff.mp hcon)
  have hsne : svals ≠ [] := fun hcon => hpne (List.map_eq_nil_iff.mp hcon)
  have hmlt : m < svals.length := argmaxFirstIdx_lt hsne
  have hmlt' : m < pidxs.length := by
    have h2 : svals.length = pidxs.length := by simp [hsvals]
    omega
  refine ⟨pidxs.getD m 0, ?_, ?_, ?_, ?_⟩
  · have hj : pidxs.getD m 0 ∈ pidxs := getD_mem hmlt' 0
    obtain ⟨c, hc, hcd⟩ := List.mem_map.mp hj
    rw [← hcd]
    exact getD_mem (hmem c hc) 0
  · rfl
  · show svals.getD m 0 = _
    exact map_getD _ hmlt' 0 0
  · intro c hc
    have h1 : sig.getD c 0 ∈ pidxs := List.mem_map.mpr ⟨c, hc, rfl⟩
    have h2 : col.getD (sig.getD c 0) 0 ∈ svals := List.mem_map.mpr ⟨_, h1, rfl⟩
    exact argmax_ge_mem svals _ h2

/-- C5: for every statistics table and every query period, the threshold
function returned by `threshold_function_dynamic` is at least `snr_min`: its
value is the maximum of the fitted polynomial at `log(period)` and `snr_min`. -/
theorem threshold_dynamic_floor (rlog : ℚ → ℚ)
    (polyfit : ℕ → List ℚ → List ℚ → List ℚ) (stats : List StatRow)
    (snr_min nsigma : ℚ) (polydeg : ℕ) (p : ℚ) :
    snr_min ≤
      (threshold_function_dynamic rlog polyfit stats snr_min nsigma polydeg).1 p ∧
    (threshold_function_dynamic rlog polyfit stats snr_min nsigma polydeg).1 p =
      max (polyEval
            (threshold_function_dynamic rlog polyfit stats snr_min nsigma polydeg).2
            (rlog p))
        snr_min :=
  ⟨le_max_right _ _, rfl⟩

/-- C6: `find_peaks_single` uses the static policy exactly when the segment
count is below `min_segments` (so at `min_segments - 1` segments the result
carries the all-zero coefficient vector of length `polydeg + 1` and the
constant threshold `snr_min`, and at `min_segments` segments it carries the
dynamic fit), and `threshold_function_static` is constantly `snr_min` with an
all-zero coefficient vector. -/
theorem policy_switch_boundary (rlog : ℚ → ℚ)
    (polyfit : ℕ → List ℚ → List ℚ → List ℚ) (pg : Pgram) (iwidth : ℕ)
    (boundaries : List Seg) (min_segments : ℕ) (snr_min nsigma radius : ℚ)
    (polydeg : ℕ) {res : FPSRes} {col : List ℚ} {w : ℚ} {stats : List StatRow}
    (hmin : 1 ≤ min_segments)
    (h : find_peaks_single rlog polyfit pg iwidth boundaries min_segments
      snr_min nsigma radius polydeg = some res)
    (hcol : columnOf pg.snrs iwidth = some col)
    (hw : pg.widths.get? iwidth = some w)
    (hstats : segment_stats col boundaries = some stats)
    (hlen : col.length = pg.periods.length) :
    (∀ p, (threshold_function_static snr_min polydeg).1 p = snr_min) ∧
    (threshold_function_static snr_min polydeg).2 =
      List.replicate (polydeg + 1) 0 ∧
    (boundaries.length = min_segments - 1 →
      res.polyco = List.replicate (polydeg + 1) 0 ∧
      res.threshold = List.replicate pg.periods.length snr_min) ∧
    (boundaries.length = min_segments →
      res.polyco =
        polyfit polydeg (stats.map (fun s => s.logpmid))
          (stats.map (fun s => s.median + nsigma * s.sigma)) ∧
      res.threshold =
        pg.periods.map (fun p => max (polyEval res.polyco (rlog p)) snr_min)) := by
  rw [find_peaks_single_spec rlog polyfit pg iwidth boundaries min_segments
    snr_min nsigma radius polydeg hcol hw hstats hlen] at h
  have hres := (Option.some.inj h).symm
  refine ⟨fun p => rfl, rfl, ?_, ?_⟩
  · intro hb
    have hlt : boundaries.length < min_segments := by omega
    have hpol : policyOf rlog polyfit boundaries stats min_segments snr_min
        nsigma polydeg = threshold_function_static snr_min polydeg := by
      unfold policyOf
      rw [if_pos hlt]
    constructor
    · rw [hres]
      show (policyOf rlog polyfit boundaries stats min_segments snr_min nsigma
        polydeg).2 = _
      rw [hpol]
      rfl
    · rw [hres]
      show pg.periods.map (policyOf rlog polyfit boundaries stats min_segments
        snr_min nsigma polydeg).1 = _
      rw [hpol]
      exact map_const_eq_replicate snr_min pg.periods
  · intro hb
    have hlt : ¬ boundaries.length < min_segments := by omega
    have hpol : policyOf rlog polyfit boundaries stats min_segments snr_min
        nsigma polydeg =
        threshold_function_dynamic rlog polyfit stats snr_min nsigma polydeg := by
      unfold policyOf
      rw [if_neg hlt]
    have hco : res.polyco =
        polyfit polydeg (stats.map (fun s => s.logpmid))
          (stats.map (fun s => s.median + nsigma * s.sigma)) := by
      rw [hres]
      show (policyOf rlog polyfit boundaries stats min_segments snr_min nsigma
        polydeg).2 = _
      rw [hpol]
      rfl
    refine ⟨hco, ?_⟩
    have hthr : res.threshold =
        pg.periods.map (policyOf rlog polyfit boundaries stats min_segments
          snr_min nsigma polydeg).1 := by
      rw [hres]
    rw [hthr, hpol, hco]
    rfl

/-- C6 witness: one segment with `min_segments = 2` (the static side of the
boundary), on a concrete two-trial grid. -/
theorem policy_switch_boundary_witness :
    (∀ p, (threshold_function_static (13/2 : ℚ) 2).1 p = 13/2) ∧
    (threshold_function_static (13/2 : ℚ) 2).2 = List.replicate 3 0 := by
  have h := @policy_switch_boundary rlog0 pfit0 pgW 0 bndW 2 (13/2) (13/2)
    (1/5) 2 resW [10, 1] 3 statsW (by norm_num)
    (by norm_num [find_peaks_single, find_peaks, pooledPeaks, detection_mk, mkPeakOfCluster,
    columnOf, segment, segBounds, segment_stats, statsRowOf, sliceSeg,
    percentile, sortQ, insertQ, policyOf, threshold_function_static,
    threshold_function_dynamic, npGT, npBoolIndex, trueIndices, maskOf,
    cluster_1d, argsortIdx, insertIdx, gapSplit, argmaxFirstIdx, maxBySnr,
    optMapM, qtrunc, nsegOf, slenOf, detIdxOf, detFormula, peakFormula, peak0,
    rlog0, pfit0, pgW, bndW, statsW, resW, List.range_succ, List.filter_cons,
    List.isEmpty_cons, List.cons_ne_nil, List.getD_cons_zero,
    List.getD_cons_succ, Option.getD_some, Option.getD_none, List.replicate,
    max_def, min_def, -List.filter_eq_nil_iff])
    (by norm_num [find_peaks_single, find_peaks, pooledPeaks, detection_mk, mkPeakOfCluster,
    columnOf, segment, segBounds, segment_stats, statsRowOf, sliceSeg,
    percentile, sortQ, insertQ, policyOf, threshold_function_static,
    threshold_function_dynamic, npGT, npBoolIndex, trueIndices, maskOf,
    cluster_1d, argsortIdx, insertIdx, gapSplit, argmaxFirstIdx, maxBySnr,
    optMapM, qtrunc, nsegOf, slenOf, detIdxOf, detFormula, peakFormula, peak0,
    rlog0, pfit0, pgW, bndW, statsW, resW, List.range_succ, List.filter_cons,
    List.isEmpty_cons, List.cons_ne_nil, List.getD_cons_zero,
    List.getD_cons_succ, Option.getD_some, Option.getD_none, List.replicate,
    max_def, min_def, -List.filter_eq_nil_iff])
    (by norm_num [pgW])
    (by norm_num [find_peaks_single, find_peaks, pooledPeaks, detection_mk, mkPeakOfCluster,
    columnOf, segment, segBounds, segment_stats, statsRowOf, sliceSeg,
    percentile, sortQ, insertQ, policyOf, threshold_function_static,
    threshold_function_dynamic, npGT, npBoolIndex, trueIndices, maskOf,
    cluster_1d, argsortIdx, insertIdx, gapSplit, argmaxFirstIdx, maxBySnr,
    optMapM, qtrunc, nsegOf, slenOf, detIdxOf, detFormula, peakFormula, peak0,
    rlog0, pfit0, pgW, bndW, statsW, resW, List.range_succ, List.filter_cons,
    List.isEmpty_cons, List.cons_ne_nil, List.getD_cons_zero,
    List.getD_cons_succ, Option.getD_some, Option.getD_none, List.replicate,
    max_def, min_def, -List.filter_eq_nil_iff])
    (by norm_num [pgW])
  exact ⟨h.1, h.2.1⟩

/-- C3: in `find_peaks_single` a trial is significant exactly when its S/N
strictly exceeds the threshold function evaluated at that trial's period (the
threshold array is the policy function mapped over the period array, not over
log-periods); with no significant trial the function returns successfully
with an empty Peak list alongside the statistics table, the coefficients and
the threshold array. -/
theorem significance_strict_and_empty_ok (rlog : ℚ → ℚ)
    (polyfit : ℕ → List ℚ → List ℚ → List ℚ) (pg : Pgram) (iwidth : ℕ)
    (boundaries : List Seg) (min_segments : ℕ) (snr_min nsigma radius : ℚ)
    (polydeg : ℕ) {col : List ℚ} {w : ℚ} {stats : List StatRow}
    (hcol : columnOf pg.snrs iwidth = some col)
    (hw : pg.widths.get? iwidth = some w)
    (hstats : segment_stats col boundaries = some stats)
    (hlen : col.length = pg.periods.length) :
    ∃ res, find_peaks_single rlog polyfit pg iwidth boundaries min_segments
        snr_min nsigma radius polydeg = some res ∧
      res.stats = stats ∧
      res.polyco =
        (policyOf rlog polyfit boundaries stats min_segments snr_min nsigma polydeg).2 ∧
      res.threshold =
        pg.periods.map
          (policyOf rlog polyfit boundaries stats min_segments snr_min nsigma polydeg).1 ∧
      (∀ i, i < pg.periods.length →
        res.threshold.getD i 0 =
          (policyOf rlog polyfit boundaries stats min_segments snr_min nsigma polydeg).1
            (pg.periods.getD i 0)) ∧
      (res.peaks = [] ↔
        ∀ i, i < pg.periods.length → col.getD i 0 ≤ res.threshold.getD i 0) := by
  have hspec := find_peaks_single_spec rlog polyfit pg iwidth boundaries
    min_segments snr_min nsigma radius polydeg hcol hw hstats hlen
  set tp := policyOf rlog polyfit boundaries stats min_segments snr_min nsigma
    polydeg with htp
  set thr := pg.periods.map tp.1 with hthrdef
  refine ⟨_, hspec, rfl, rfl, rfl, ?_, ?_⟩
  · intro i hi
    exact map_getD tp.1 hi 0 0
  · show (clsOf pg col thr radius).map
        (peakFormula pg iwidth w col (sigIdxOf col thr)) = [] ↔ _
    have hthrlen : col.length = thr.length := by simp [hthrdef, hlen]
    rw [List.map_eq_nil_iff]
    unfold clsOf
    rw [cluster_1d_nil_iff, List.map_eq_nil_iff]
    constructor
    · intro hnil i hi
      by_contra hcon
      push_neg at hcon
      have hmem : i ∈ sigIdxOf col thr :=
        (mem_sigIdxOf hthrlen).mpr ⟨by rw [hlen]; exact hi, hcon⟩
      rw [hnil] at hmem
      simp at hmem
    · intro hall
      rw [List.eq_nil_iff_forall_not_mem]
      intro j hj
      obtain ⟨hj1, hj2⟩ := (mem_sigIdxOf hthrlen).mp hj
      have hj3 : j < pg.periods.length := by rw [← hlen]; exact hj1
      have h4 := hall j hj3
      exact absurd h4 (not_le.mpr hj2)

/-- C3 witness: the concrete two-trial, one-width grid with one segment. -/
theorem significance_strict_and_empty_ok_witness :
    ∃ res, find_peaks_single rlog0 pfit0 pgW 0 bndW 8 (13/2) (13/2) (1/5) 2 =
        some res ∧ res.stats = statsW := by
  obtain ⟨res, h1, h2, -⟩ := @significance_strict_and_empty_ok rlog0 pfit0 pgW
    0 bndW 8 (13/2) (13/2) (1/5) 2 [10, 1] 3 statsW
    (by norm_num [find_peaks_single, find_peaks, pooledPeaks, detection_mk, mkPeakOfCluster,
    columnOf, segment, segBounds, segment_stats, statsRowOf, sliceSeg,
    percentile, sortQ, insertQ, policyOf, threshold_function_static,
    threshold_function_dynamic, npGT, npBoolIndex, trueIndices, maskOf,
    cluster_1d, argsortIdx, insertIdx, gapSplit, argmaxFirstIdx, maxBySnr,
    optMapM, qtrunc, nsegOf, slenOf, detIdxOf, detFormula, peakFormula, peak0,
    rlog0, pfit0, pgW, bndW, statsW, resW, List.range_succ, List.filter_cons,
    List.isEmpty_cons, List.cons_ne_nil, List.getD_cons_zero,
    List.getD_cons_succ, Option.getD_some, Option.getD_none, List.replicate,
    max_def, min_def, -List.filter_eq_nil_iff])
    (by norm_num [find_peaks_single, find_peaks, pooledPeaks, detection_mk, mkPeakOfCluster,
    columnOf, segment, segBounds, segment_stats, statsRowOf, sliceSeg,
    percentile, sortQ, insertQ, policyOf, threshold_function_static,
    threshold_function_dynamic, npGT, npBoolIndex, trueIndices, maskOf,
    cluster_1d, argsortIdx, insertIdx, gapSplit, argmaxFirstIdx, maxBySnr,
    optMapM, qtrunc, nsegOf, slenOf, detIdxOf, detFormula, peakFormula, peak0,
    rlog0, pfit0, pgW, bndW, statsW, resW, List.range_succ, List.filter_cons,
    List.isEmpty_cons, List.cons_ne_nil, List.getD_cons_zero,
    List.getD_cons_succ, Option.getD_some, Option.getD_none, List.replicate,
    max_def, min_def, -List.filter_eq_nil_iff])
    (by norm_num [find_peaks_single, find_peaks, pooledPeaks, detection_mk, mkPeakOfCluster,
    columnOf, segment, segBounds, segment_stats, statsRowOf, sliceSeg,
    percentile, sortQ, insertQ, policyOf, threshold_function_static,
    threshold_function_dynamic, npGT, npBoolIndex, trueIndices, maskOf,
    cluster_1d, argsortIdx, insertIdx, gapSplit, argmaxFirstIdx, maxBySnr,
    optMapM, qtrunc, nsegOf, slenOf, detIdxOf, detFormula, peakFormula, peak0,
    rlog0, pfit0, pgW, bndW, statsW, resW, List.range_succ, List.filter_cons,
    List.isEmpty_cons, List.cons_ne_nil, List.getD_cons_zero,
    List.getD_cons_succ, Option.getD_some, Option.getD_none, List.replicate,
    max_def, min_def, -List.filter_eq_nil_iff])
    (by norm_num [pgW])
  exact ⟨res, h1, h2⟩

/-- C2: each cluster of significant trials yields exactly one Peak, carrying
the argmax-S/N member's period and S/N, the grid metadata's dm, the processed
column's width index and value, and duty cycle `width / bins_avg`; re-running
on identical inputs yields the identical result. -/
theorem peak_per_cluster_argmax (rlog : ℚ → ℚ)
    (polyfit : ℕ → List ℚ → List ℚ → List ℚ) (pg : Pgram) (iwidth : ℕ)
    (boundaries : List Seg) (min_segments : ℕ) (snr_min nsigma radius : ℚ)
    (polydeg : ℕ) {res : FPSRes} {col : List ℚ} {w : ℚ} {stats : List StatRow}
    (h : find_peaks_single rlog polyfit pg iwidth boundaries min_segments
      snr_min nsigma radius polydeg = some res)
    (hcol : columnOf pg.snrs iwidth = some col)
    (hw : pg.widths.get? iwidth = some w)
    (hstats : segment_stats col boundaries = some stats)
    (hlen : col.length = pg.periods.length) :
    res.peaks.length = (clsOf pg col res.threshold radius).length ∧
    (∀ k, k < (clsOf pg col res.threshold radius).length →
      res.peaks.get? k =
        some (peakFormula pg iwidth w col (sigIdxOf col res.threshold)
          ((clsOf pg col res.threshold radius).getD k []))) ∧
    (∀ k, k < (clsOf pg col res.threshold radius).length →
      ∃ pk, res.peaks.get? k = some pk ∧
        pk.dm = pg.metadata.dm ∧ pk.iw = iwidth ∧ pk.width = w ∧
        pk.ducy = w / pg.bins_avg ∧
        (∃ j, j ∈ sigIdxOf col res.threshold ∧
          pk.period = pg.periods.getD j 0 ∧ pk.snr = col.getD j 0) ∧
        (∀ c ∈ (clsOf pg col res.threshold radius).getD k [],
          col.getD ((sigIdxOf col res.threshold).getD c 0) 0 ≤ pk.snr)) ∧
    (∀ res', find_peaks_single rlog polyfit pg iwidth boundaries min_segments
      snr_min nsigma radius polydeg = some res' → res' = res) := by
  have hspec := find_peaks_single_spec rlog polyfit pg iwidth boundaries
    min_segments snr_min nsigma radius polydeg hcol hw hstats hlen
  rw [hspec] at h
  have hres := (Option.some.inj h).symm
  set tp := policyOf rlog polyfit boundaries stats min_segments snr_min nsigma
    polydeg with htp
  set thr := pg.periods.map tp.1 with hthrdef
  have hthr : res.threshold = thr := by rw [hres]
  have hpks : res.peaks =
      (clsOf pg col thr radius).map
        (peakFormula pg iwidth w col (sigIdxOf col thr)) := by rw [hres]
  rw [hthr, hpks]
  refine ⟨by simp, ?_, ?_, ?_⟩
  · intro k hk
    rw [List.get?_map, get?_getD hk []]
    rfl
  · intro k hk
    have hmem : (clsOf pg col thr radius).getD k [] ∈ clsOf pg col thr radius :=
      getD_mem hk []
    obtain ⟨j, hj, hper, hsnr, hmax⟩ :=
      peakFormula_spec pg iwidth w col thr radius _ hmem
    refine ⟨peakFormula pg iwidth w col (sigIdxOf col thr)
      ((clsOf pg col thr radius).getD k []), ?_, rfl, rfl, rfl, rfl,
      ⟨j, hj, hper, hsnr⟩, hmax⟩
    rw [List.get?_map, get?_getD hk []]
    rfl
  · intro res' h'
    rw [hspec] at h'
    rw [← Option.some.inj h', hres]

/-- C2 witness: the concrete two-trial grid yields exactly one Peak for its
single cluster. -/
theorem peak_per_cluster_argmax_witness :
    resW.peaks.length = (clsOf pgW [10, 1] resW.threshold (1/5)).length := by
  have h := @peak_per_cluster_argmax rlog0 pfit0 pgW 0 bndW 8 (13/2) (13/2)
    (1/5) 2 resW [10, 1] 3 statsW
    (by norm_num [find_peaks_single, find_peaks, pooledPeaks, detection_mk, mkPeakOfCluster,
    columnOf, segment, segBounds, segment_stats, statsRowOf, sliceSeg,
    percentile, sortQ, insertQ, policyOf, threshold_function_static,
    threshold_function_dynamic, npGT, npBoolIndex, trueIndices, maskOf,
    cluster_1d, argsortIdx, insertIdx, gapSplit, argmaxFirstIdx, maxBySnr,
    optMapM, qtrunc, nsegOf, slenOf, detIdxOf, detFormula, peakFormula, peak0,
    rlog0, pfit0, pgW, bndW, statsW, resW, List.range_succ, List.filter_cons,
    List.isEmpty_cons, List.cons_ne_nil, List.getD_cons_zero,
    List.getD_cons_succ, Option.getD_some, Option.getD_none, List.replicate,
    max_def, min_def, -List.filter_eq_nil_iff])
    (by norm_num [find_peaks_single, find_peaks, pooledPeaks, detection_mk, mkPeakOfCluster,
    columnOf, segment, segBounds, segment_stats, statsRowOf, sliceSeg,
    percentile, sortQ, insertQ, policyOf, threshold_function_static,
    threshold_function_dynamic, npGT, npBoolIndex, trueIndices, maskOf,
    cluster_1d, argsortIdx, insertIdx, gapSplit, argmaxFirstIdx, maxBySnr,
    optMapM, qtrunc, nsegOf, slenOf, detIdxOf, detFormula, peakFormula, peak0,
    rlog0, pfit0, pgW, bndW, statsW, resW, List.range_succ, List.filter_cons,
    List.isEmpty_cons, List.cons_ne_nil, List.getD_cons_zero,
    List.getD_cons_succ, Option.getD_some, Option.getD_none, List.replicate,
    max_def, min_def, -List.filter_eq_nil_iff])
    (by norm_num [find_peaks_single, find_peaks, pooledPeaks, detection_mk, mkPeakOfCluster,
    columnOf, segment, segBounds, segment_stats, statsRowOf, sliceSeg,
    percentile, sortQ, insertQ, policyOf, threshold_function_static,
    threshold_function_dynamic, npGT, npBoolIndex, trueIndices, maskOf,
    cluster_1d, argsortIdx, insertIdx, gapSplit, argmaxFirstIdx, maxBySnr,
    optMapM, qtrunc, nsegOf, slenOf, detIdxOf, detFormula, peakFormula, peak0,
    rlog0, pfit0, pgW, bndW, statsW, resW, List.range_succ, List.filter_cons,
    List.isEmpty_cons, List.cons_ne_nil, List.getD_cons_zero,
    List.getD_cons_succ, Option.getD_some, Option.getD_none, List.replicate,
    max_def, min_def, -List.filter_eq_nil_iff])
    (by norm_num [find_peaks_single, find_peaks, pooledPeaks, detection_mk, mkPeakOfCluster,
    columnOf, segment, segBounds, segment_stats, statsRowOf, sliceSeg,
    percentile, sortQ, insertQ, policyOf, threshold_function_static,
    threshold_function_dynamic, npGT, npBoolIndex, trueIndices, maskOf,
    cluster_1d, argsortIdx, insertIdx, gapSplit, argmaxFirstIdx, maxBySnr,
    optMapM, qtrunc, nsegOf, slenOf, detIdxOf, detFormula, peakFormula, peak0,
    rlog0, pfit0, pgW, bndW, statsW, resW, List.range_succ, List.filter_cons,
    List.isEmpty_cons, List.cons_ne_nil, List.getD_cons_zero,
    List.getD_cons_succ, Option.getD_some, Option.getD_none, List.replicate,
    max_def, min_def, -List.filter_eq_nil_iff])
    (by norm_num [pgW])
  exact h.1

/-- C10: every Peak emitted by `find_peaks_single` has S/N strictly above the
floor `snr_min` under either policy: the whole threshold array is at least
`snr_min`, and each emitted Peak's S/N equals a significant trial's S/N, which
strictly exceeds the threshold at that trial's period. -/
theorem peaks_exceed_floor (rlog : ℚ → ℚ)
    (polyfit : ℕ → List ℚ → List ℚ → List ℚ) (pg : Pgram) (iwidth : ℕ)
    (boundaries : List Seg) (min_segments : ℕ) (snr_min nsigma radius : ℚ)
    (polydeg : ℕ) {res : FPSRes} {col : List ℚ} {w : ℚ} {stats : List StatRow}
    (h : find_peaks_single rlog polyfit pg iwidth boundaries min_segments
      snr_min nsigma radius polydeg = some res)
    (hcol : columnOf pg.snrs iwidth = some col)
    (hw : pg.widths.get? iwidth = some w)
    (hstats : segment_stats col boundaries = some stats)
    (hlen : col.length = pg.periods.length) :
    (∀ i, i < res.threshold.length → snr_min ≤ res.threshold.getD i 0) ∧
    ∀ pk ∈ res.peaks, snr_min < pk.snr ∧
      ∃ i, i < pg.periods.length ∧ pk.period = pg.periods.getD i 0 ∧
        pk.snr = col.getD i 0 ∧ res.threshold.getD i 0 < pk.snr := by
  have hspec := find_peaks_single_spec rlog polyfit pg iwidth boundaries
    min_segments snr_min nsigma radius polydeg hcol hw hstats hlen
  rw [hspec] at h
  have hres := (Option.some.inj h).symm
  set tp := policyOf rlog polyfit boundaries stats min_segments snr_min nsigma
    polydeg with htp
  set thr := pg.periods.map tp.1 with hthrdef
  have hthr : res.threshold = thr := by rw [hres]
  have hpks : res.peaks =
      (clsOf pg col thr radius).map
        (peakFormula pg iwidth w col (sigIdxOf col thr)) := by rw [hres]
  have hthrlen : thr.length = pg.periods.length := by simp [hthrdef]
  have hfloor : ∀ i, i < thr.length → snr_min ≤ thr.getD i 0 := by
    intro i hi
    rw [hthrdef] at hi ⊢
    rw [map_getD tp.1 (by simpa using hi) 0 0]
    exact policyOf_fst_ge rlog polyfit boundaries stats min_segments snr_min
      nsigma polydeg _
  constructor
  · rw [hthr]
    exact hfloor
  · intro pk hpk
    rw [hpks] at hpk
    obtain ⟨cli, hcli, rfl⟩ := List.mem_map.mp hpk
    obtain ⟨j, hj, hper, hsnr, hmax⟩ :=
      peakFormula_spec pg iwidth w col thr radius cli hcli
    have hcollen : col.length = thr.length := by omega
    obtain ⟨hjlt, hjsig⟩ := (mem_sigIdxOf hcollen).mp hj
    have hfl : snr_min ≤ thr.getD j 0 := hfloor j (by omega)
    constructor
    · rw [hsnr]
      exact lt_of_le_of_lt hfl hjsig
    · exact ⟨j, by omega, hper, hsnr, by rw [hthr, hsnr]; exact hjsig⟩

/-- C10 witness: the concrete grid's single emitted Peak (S/N 10) exceeds the
floor 13/2. -/
theorem peaks_exceed_floor_witness :
    (13 : ℚ)/2 < (⟨1, 10, 5, 0, 3, 1/4⟩ : Peak).snr := by
  have h := @peaks_exceed_floor rlog0 pfit0 pgW 0 bndW 8 (13/2) (13/2)
    (1/5) 2 resW [10, 1] 3 statsW
    (by norm_num [find_peaks_single, find_peaks, pooledPeaks, detection_mk, mkPeakOfCluster,
    columnOf, segment, segBounds, segment_stats, statsRowOf, sliceSeg,
    percentile, sortQ, insertQ, policyOf, threshold_function_static,
    threshold_function_dynamic, npGT, npBoolIndex, trueIndices, maskOf,
    cluster_1d, argsortIdx, insertIdx, gapSplit, argmaxFirstIdx, maxBySnr,
    optMapM, qtrunc, nsegOf, slenOf, detIdxOf, detFormula, peakFormula, peak0,
    rlog0, pfit0, pgW, bndW, statsW, resW, List.range_succ, List.filter_cons,
    List.isEmpty_cons, List.cons_ne_nil, List.getD_cons_zero,
    List.getD_cons_succ, Option.getD_some, Option.getD_none, List.replicate,
    max_def, min_def, -List.filter_eq_nil_iff])
    (by norm_num [find_peaks_single, find_peaks, pooledPeaks, detection_mk, mkPeakOfCluster,
    columnOf, segment, segBounds, segment_stats, statsRowOf, sliceSeg,
    percentile, sortQ, insertQ, policyOf, threshold_function_static,
    threshold_function_dynamic, npGT, npBoolIndex, trueIndices, maskOf,
    cluster_1d, argsortIdx, insertIdx, gapSplit, argmaxFirstIdx, maxBySnr,
    optMapM, qtrunc, nsegOf, slenOf, detIdxOf, detFormula, peakFormula, peak0,
    rlog0, pfit0, pgW, bndW, statsW, resW, List.range_succ, List.filter_cons,
    List.isEmpty_cons, List.cons_ne_nil, List.getD_cons_zero,
    List.getD_cons_succ, Option.getD_some, Option.getD_none, List.replicate,
    max_def, min_def, -List.filter_eq_nil_iff])
    (by norm_num [find_peaks_single, find_peaks, pooledPeaks, detection_mk, mkPeakOfCluster,
    columnOf, segment, segBounds, segment_stats, statsRowOf, sliceSeg,
    percentile, sortQ, insertQ, policyOf, threshold_function_static,
    threshold_function_dynamic, npGT, npBoolIndex, trueIndices, maskOf,
    cluster_1d, argsortIdx, insertIdx, gapSplit, argmaxFirstIdx, maxBySnr,
    optMapM, qtrunc, nsegOf, slenOf, detIdxOf, detFormula, peakFormula, peak0,
    rlog0, pfit0, pgW, bndW, statsW, resW, List.range_succ, List.filter_cons,
    List.isEmpty_cons, List.cons_ne_nil, List.getD_cons_zero,
    List.getD_cons_succ, Option.getD_some, Option.getD_none, List.replicate,
    max_def, min_def, -List.filter_eq_nil_iff])
    (by norm_num [find_peaks_single, find_peaks, pooledPeaks, detection_mk, mkPeakOfCluster,
    columnOf, segment, segBounds, segment_stats, statsRowOf, sliceSeg,
    percentile, sortQ, insertQ, policyOf, threshold_function_static,
    threshold_function_dynamic, npGT, npBoolIndex, trueIndices, maskOf,
    cluster_1d, argsortIdx, insertIdx, gapSplit, argmaxFirstIdx, maxBySnr,
    optMapM, qtrunc, nsegOf, slenOf, detIdxOf, detFormula, peakFormula, peak0,
    rlog0, pfit0, pgW, bndW, statsW, resW, List.range_succ, List.filter_cons,
    List.isEmpty_cons, List.cons_ne_nil, List.getD_cons_zero,
    List.getD_cons_succ, Option.getD_some, Option.getD_none, List.replicate,
    max_def, min_def, -List.filter_eq_nil_iff])
    (by norm_num [pgW])
  exact (h.2 ⟨1, 10, 5, 0, 3, 1/4⟩ (by simp [resW, statsW])).1

/-- C1: `find_peaks` emits exactly one Detection per cluster of the pooled
Peaks (an empty pool yields an empty Detection list without error), and each
Detection's representative is the member Peak of highest S/N, whose period,
S/N, dm, width index, width and duty cycle the Detection exposes as its own
attributes. -/
theorem one_detection_per_cluster (rlog : ℚ → ℚ)
    (polyfit : ℕ → List ℚ → List ℚ → List ℚ) (pg : Pgram)
    (segment_dftbins_length : ℚ) (min_segments : ℕ)
    (snr_min nsigma peak_clustering_radius : ℚ) (polydeg : ℕ) (sw : ℚ)
    {pool : List Peak}
    (hp : pooledPeaks rlog polyfit pg segment_dftbins_length min_segments
      snr_min nsigma peak_clustering_radius polydeg = some pool)
    (hrows : pg.snrs.length = pg.periods.length) :
    ∃ dets, find_peaks rlog polyfit pg segment_dftbins_length min_segments
        snr_min nsigma peak_clustering_radius polydeg sw = some dets ∧
      dets.length =
        (cluster_1d (pool.map (fun pk => pg.tobs / pk.period))
          peak_clustering_radius).length ∧
      (pool = [] → dets = []) ∧
      ∀ k, k < dets.length →
        ∃ d grp, dets.get? k = some d ∧
          optMapM (fun ix => pool.get? ix)
            ((cluster_1d (pool.map (fun pk => pg.tobs / pk.period))
              peak_clustering_radius).getD k []) = some grp ∧
          d.peaks = grp ∧ d.toPeak ∈ grp ∧
          (∀ q ∈ grp, q.snr ≤ d.toPeak.snr) ∧
          d.period = d.toPeak.period ∧ d.snr = d.toPeak.snr ∧
          d.dm = d.toPeak.dm ∧ d.iw = d.toPeak.iw ∧
          d.width = d.toPeak.width ∧ d.ducy = d.toPeak.ducy := by
  have hspec := find_peaks_spec rlog polyfit pg segment_dftbins_length
    min_segments snr_min nsigma peak_clustering_radius polydeg sw hp hrows
  set cls := cluster_1d (pool.map (fun pk => pg.tobs / pk.period))
    peak_clustering_radius with hcls
  refine ⟨_, hspec, by simp, ?_, ?_⟩
  · intro hpool
    subst hpool
    rfl
  · intro k hk
    have hk' : k < cls.length := by simpa using hk
    have hcli : cls.getD k [] ∈ cls := getD_mem hk' []
    have hltpool : ∀ c ∈ cls.getD k [], c < pool.length := by
      intro c hc
      have h2 := cluster_1d_mem_lt hcli hc
      simpa using h2
    set grp := (cls.getD k []).map (fun ix => pool.getD ix peak0) with hgrp
    have hgne : grp ≠ [] := by
      intro hcon
      exact cluster_1d_ne_nil hcli (List.map_eq_nil_iff.mp hcon)
    obtain ⟨top, htop⟩ := Option.isSome_iff_exists.mp (maxBySnr_isSome hgne)
    have htopD : (maxBySnr grp).getD peak0 = top := by rw [htop]; rfl
    refine ⟨detFormula pg sw pool (cls.getD k []), grp, ?_,
      optMapM_eq_map (fun ix hix => get?_getD (hltpool ix hix) peak0), rfl,
      ?_, ?_, rfl, rfl, rfl, rfl, rfl, rfl⟩
    · rw [List.get?_map, get?_getD hk' []]
      rfl
    · show (maxBySnr grp).getD peak0 ∈ grp
      rw [htopD]
      exact maxBySnr_mem htop
    · intro q hq
      show q.snr ≤ ((maxBySnr grp).getD peak0).snr
      rw [htopD]
      exact maxBySnr_le htop q hq

/-- C1 witness: the concrete one-width grid pools one Peak and yields one
Detection. -/
theorem one_detection_per_cluster_witness :
    ∃ dets, find_peaks rlog0 pfit0 pgW 10 8 (13/2) (13/2) (1/5) 2 1 =
      some dets := by
  obtain ⟨dets, hdets, -⟩ := @one_detection_per_cluster rlog0 pfit0 pgW 10 8
    (13/2) (13/2) (1/5) 2 1 poolW
    (by norm_num [find_peaks_single, find_peaks, pooledPeaks, detection_mk, mkPeakOfCluster,
    columnOf, segment, segBounds, segment_stats, statsRowOf, sliceSeg,
    percentile, sortQ, insertQ, policyOf, threshold_function_static,
    threshold_function_dynamic, npGT, npBoolIndex, trueIndices, maskOf,
    cluster_1d, argsortIdx, insertIdx, gapSplit, argmaxFirstIdx, maxBySnr,
    optMapM, qtrunc, nsegOf, slenOf, detIdxOf, detFormula, peakFormula, peak0,
    rlog0, pfit0, pgW, bndW, statsW, resW, List.range_succ, List.filter_cons,
    List.isEmpty_cons, List.cons_ne_nil, List.getD_cons_zero,
    List.getD_cons_succ, Option.getD_some, Option.getD_none, List.replicate,
    max_def, min_def, -List.filter_eq_nil_iff, poolW, List.getLastD, List.dropLast, Int.toNat])
    (by norm_num [pgW])
  exact ⟨dets, hdets⟩

theorem max_one_qtrunc_eq_floor (x : ℚ) :
    (max 1 (qtrunc x)).toNat = (max 1 ⌊x⌋).toNat := by
  unfold qtrunc
  by_cases h : 0 ≤ x
  · rw [if_pos h]
  · rw [if_neg h]
    push_neg at h
    have h1 : ⌊x⌋ < 0 := by
      by_contra hcon
      push_neg at hcon
      have h2 : (0 : ℚ) ≤ (⌊x⌋ : ℚ) := by exact_mod_cast hcon
      have h3 := Int.floor_le x
      linarith
    have h2 : 0 ≤ ⌊-x⌋ := by
      apply Int.le_floor.mpr
      push_cast
      linarith
    omega

/-- C4: for a strictly monotonic positive period sequence and positive
duration, `segment` returns `max(1, floor(span / min_segment_width))`
segments (span in DFT-bin units) whose half-open ranges are contiguous,
non-overlapping, start at 0, union exactly `[0, N)`, and whose final end
index equals `N`. -/
theorem segment_partition (rlog : ℚ → ℚ) (tobs w : ℚ) {periods : List ℚ}
    (hne : periods ≠ []) (hpos : ∀ p ∈ periods, 0 < p)
    (hmono : periods.Pairwise (· < ·) ∨ periods.Pairwise (· > ·))
    (htobs : 0 < tobs) (hw : 0 < w) :
    ∃ segs, segment rlog periods tobs w = some segs ∧
      segs.length =
        (max 1 ⌊(tobs / periods.headD 0 - tobs / periods.getLastD 0) / w⌋).toNat ∧
      (∃ s0, segs.get? 0 = some s0 ∧ s0.istart = 0) ∧
      (∃ sl, segs.getLast? = some sl ∧ sl.iend = periods.length) ∧
      (∀ k s s', segs.get? k = some s → segs.get? (k + 1) = some s' →
        s.iend = s'.istart) ∧
      (∀ s ∈ segs, s.istart ≤ s.iend) ∧
      (∀ j, j < periods.length ↔ ∃ s ∈ segs, s.istart ≤ j ∧ j < s.iend) ∧
      (∀ k k' s s', k < k' → segs.get? k = some s → segs.get? k' = some s' →
        s.iend ≤ s'.istart) := by
  obtain ⟨segs, hseg, hlen, hget⟩ := segment_spec rlog tobs w hne
  set nseg := nsegOf periods tobs w with hnseg
  set slen := slenOf periods tobs w with hslen
  set N := periods.length with hN
  have hN1 : 1 ≤ N := by
    rw [hN]
    exact List.length_pos.mpr hne
  obtain ⟨m, hm⟩ : ∃ m, nseg = m + 1 :=
    ⟨nseg - 1, by have := nsegOf_pos periods tobs w; omega⟩
  have hsl : slen * nseg ≤ N := by
    rw [hslen, slenOf, ← hnseg]
    exact Nat.div_mul_le_self N nseg
  have hgetk : ∀ k, k < nseg →
      ∃ s : Seg, segs.get? k = some s ∧ s.istart = k * slen ∧
        s.iend = (if k = m then N else (k + 1) * slen) := by
    intro k hk
    obtain ⟨s, h1, h2, h3⟩ := hget k hk
    refine ⟨s, h1, h2, ?_⟩
    rw [h3]
    have : nseg - 1 = m := by omega
    rw [this]
  have hiendle : ∀ k, k < nseg →
      (if k = m then N else (k + 1) * slen) ≤ N := by
    intro k hk
    by_cases hkm : k = m
    · rw [if_pos hkm]
    · rw [if_neg hkm]
      calc (k + 1) * slen ≤ (m + 1) * slen :=
            Nat.mul_le_mul_right slen (by omega)
        _ = slen * nseg := by rw [hm, Nat.mul_comm]
        _ ≤ N := hsl
  refine ⟨segs, hseg, ?_, ?_, ?_, ?_, ?_, ?_, ?_⟩
  · rw [hlen, hnseg]
    unfold nsegOf
    exact max_one_qtrunc_eq_floor _
  · obtain ⟨s, h1, h2, h3⟩ := hgetk 0 (by omega)
    exact ⟨s, h1, by omega⟩
  · obtain ⟨s, h1, h2, h3⟩ := hgetk m (by omega)
    refine ⟨s, ?_, by rw [h3, if_pos rfl]⟩
    rw [List.getLast?_eq_getElem?, ← List.get?_eq_getElem?, hlen, hm]
    simpa using h1
  · intro k s s' h1 h2
    have hk1 : k + 1 < segs.length := by
      by_contra hcon
      push_neg at hcon
      rw [List.get?_eq_getElem?, List.getElem?_eq_none hcon] at h2
      simp at h2
    rw [hlen] at hk1
    obtain ⟨sc, hc1, hc2, hc3⟩ := hgetk k (by omega)
    obtain ⟨sc', hc1', hc2', hc3'⟩ := hgetk (k + 1) hk1
    rw [h1] at hc1
    rw [h2] at hc1'
    have hs := Option.some.inj hc1
    have hs' := Option.some.inj hc1'
    subst hs
    subst hs'
    rw [hc3, hc2', if_neg (by omega)]
  · intro s hs
    obtain ⟨k, hk⟩ := List.mem_iff_get?.mp hs
    have hklt : k < nseg := by
      rw [← hlen]
      by_contra hcon
      push_neg at hcon
      rw [List.get?_eq_getElem?, List.getElem?_eq_none hcon] at hk
      simp at hk
    obtain ⟨sc, hc1, hc2, hc3⟩ := hgetk k hklt
    rw [hk] at hc1
    have hse := Option.some.inj hc1
    subst hse
    rw [hc2, hc3]
    by_cases hkm : k = m
    · rw [if_pos hkm, hkm]
      calc m * slen ≤ (m + 1) * slen := Nat.mul_le_mul_right slen (by omega)
        _ = slen * nseg := by rw [hm, Nat.mul_comm]
        _ ≤ N := hsl
    · rw [if_neg hkm]
      exact Nat.mul_le_mul_right slen (by omega)
  · intro j
    constructor
    · intro hj
      by_cases hsl0 : slen = 0
      · obtain ⟨s, h1, h2, h3⟩ := hgetk m (by omega)
        refine ⟨s, List.mem_iff_get?.mpr ⟨m, h1⟩, ?_, ?_⟩
        · rw [h2, hsl0]
          omega
        · rw [h3, if_pos rfl]
          exact hj
      · have hslpos : 0 < slen := Nat.pos_of_ne_zero hsl0
        set k0 := min (j / slen) m with hk0
        obtain ⟨s, h1, h2, h3⟩ := hgetk k0 (by omega)
        refine ⟨s, List.mem_iff_get?.mpr ⟨k0, h1⟩, ?_, ?_⟩
        · rw [h2]
          calc k0 * slen ≤ (j / slen) * slen :=
                Nat.mul_le_mul_right slen (min_le_left _ _)
            _ ≤ j := Nat.div_mul_le_self j slen
        · rw [h3]
          by_cases hkm : k0 = m
          · rw [if_pos hkm]
            exact hj
          · rw [if_neg hkm]
            have hk0d : k0 = j / slen := by
              rcases Nat.le_total (j / slen) m with hle | hle
              · rw [hk0, min_eq_left hle]
              · exfalso
                exact hkm (by rw [hk0, min_eq_right hle])
            rw [hk0d]
            calc j = slen * (j / slen) + j % slen :=
                  (Nat.div_add_mod j slen).symm
              _ < slen * (j / slen) + slen :=
                  Nat.add_lt_add_left (Nat.mod_lt j hslpos) _
              _ = (j / slen + 1) * slen := by ring
    · rintro ⟨s, hs, hs1, hs2⟩
      obtain ⟨k, hk⟩ := List.mem_iff_get?.mp hs
      have hklt : k < nseg := by
        rw [← hlen]
        by_contra hcon
        push_neg at hcon
        rw [List.get?_eq_getElem?, List.getElem?_eq_none hcon] at hk
        simp at hk
      obtain ⟨sc, hc1, hc2, hc3⟩ := hgetk k hklt
      rw [hk] at hc1
      have hse := Option.some.inj hc1
      subst hse
      have := hiendle k hklt
      rw [hc3] at hs2
      omega
  · intro k k' s s' hkk h1 h2
    have hk1 : k' < segs.length := by
      by_contra hcon
      push_neg at hcon
      rw [List.get?_eq_getElem?, List.getElem?_eq_none hcon] at h2
      simp at h2
    rw [hlen] at hk1
    obtain ⟨sc, hc1, hc2, hc3⟩ := hgetk k (by omega)
    obtain ⟨sc', hc1', hc2', hc3'⟩ := hgetk k' hk1
    rw [h1] at hc1
    rw [h2] at hc1'
    have hs := Option.some.inj hc1
    have hs' := Option.some.inj hc1'
    subst hs
    subst hs'
    rw [hc3, hc2', if_neg (by omega)]
    exact Nat.mul_le_mul_right slen (by omega)

/-- C4 witness: segmentation of the two-trial sequence `[1, 2]` with duration
1 and minimum segment width 10. -/
theorem segment_partition_witness :
    ∃ segs, segment rlog0 [1, 2] 1 10 = some segs ∧
      segs.length =
        (max 1 ⌊((1 : ℚ) / ([1, 2] : List ℚ).headD 0 -
          1 / ([1, 2] : List ℚ).getLastD 0) / 10⌋).toNat := by
  obtain ⟨segs, h1, h2, -⟩ := @segment_partition rlog0 1 10 [1, 2]
    (by simp)
    (by intro p hp; simp at hp; rcases hp with rfl | rfl <;> norm_num)
    (Or.inl (by norm_num [List.pairwise_cons]))
    (by norm_num) (by norm_num)
  exact ⟨segs, h1, h2⟩

theorem statsRowOf_inv {snrs : List ℚ} {b : Seg} {st : StatRow}
    (h : statsRowOf snrs b = some st) :
    percentile 25 (sliceSeg snrs b.istart b.iend) = some st.p25 ∧
    percentile 50 (sliceSeg snrs b.istart b.iend) = some st.median ∧
    percentile 75 (sliceSeg snrs b.istart b.iend) = some st.p75 ∧
    st.sigma = (st.p75 - st.p25) / (1.349 : ℚ) ∧
    st.pmid = b.pmid ∧ st.logpmid = b.logpmid := by
  unfold statsRowOf at h
  obtain ⟨p25, h25, h'⟩ := Option.bind_eq_some.mp h
  obtain ⟨med, h50, h''⟩ := Option.bind_eq_some.mp h'
  obtain ⟨p75, h75, h'''⟩ := Option.bind_eq_some.mp h''
  have hst := (Option.some.inj h''').symm
  subst hst
  exact ⟨h25, h50, h75, rfl, rfl, rfl⟩

/-- C7: `segment_stats` fills each row with the 25th/50th/75th percentiles of
the S/N slice `[istart, iend)` and the spread `(p75 - p25) / 1.349`, and
`threshold_function_dynamic` hands exactly the targets
`y = median + nsigma * sigma` at the segments' log-periods to the polynomial
fitter, so when the fitter meets the least-squares contract the returned
coefficients minimize the sum of squared residuals on those points. -/
theorem segment_stats_and_lsq_fit (snrs : List ℚ) (bnds : List Seg)
    {stats : List StatRow} (rlog : ℚ → ℚ)
    (polyfit : ℕ → List ℚ → List ℚ → List ℚ) (snr_min nsigma : ℚ)
    (polydeg : ℕ)
    (hstats : segment_stats snrs bnds = some stats)
    (hfit : IsLeastSquaresFit polydeg (stats.map (fun s => s.logpmid))
      (stats.map (fun s => s.median + nsigma * s.sigma))
      (polyfit polydeg (stats.map (fun s => s.logpmid))
        (stats.map (fun s => s.median + nsigma * s.sigma)))) :
    stats.length = bnds.length ∧
    (∀ k, k < bnds.length → ∃ b st, bnds.get? k = some b ∧
      stats.get? k = some st ∧
      percentile 25 (sliceSeg snrs b.istart b.iend) = some st.p25 ∧
      percentile 50 (sliceSeg snrs b.istart b.iend) = some st.median ∧
      percentile 75 (sliceSeg snrs b.istart b.iend) = some st.p75 ∧
      st.sigma = (st.p75 - st.p25) / (1.349 : ℚ) ∧
      st.pmid = b.pmid ∧ st.logpmid = b.logpmid) ∧
    (threshold_function_dynamic rlog polyfit stats snr_min nsigma polydeg).2 =
      polyfit polydeg (stats.map (fun s => s.logpmid))
        (stats.map (fun s => s.median + nsigma * s.sigma)) ∧
    IsLeastSquaresFit polydeg (stats.map (fun s => s.logpmid))
      (stats.map (fun s => s.median + nsigma * s.sigma))
      (threshold_function_dynamic rlog polyfit stats snr_min nsigma polydeg).2 := by
  refine ⟨optMapM_length hstats, ?_, rfl, hfit⟩
  intro k hk
  obtain ⟨b, st, h1, h2, h3⟩ := optMapM_get? hstats k hk
  obtain ⟨h25, h50, h75, hsig, hpm, hlpm⟩ := statsRowOf_inv h3
  exact ⟨b, st, h1, h2, h25, h50, h75, hsig, hpm, hlpm⟩

/-- C7 witness: a constant S/N column over one segment; the concrete fitter
`pfit5` satisfies the least-squares contract on the single target point
`(0, 5)` since its residual is zero. -/
theorem segment_stats_and_lsq_fit_witness :
    IsLeastSquaresFit 2 (statsC7.map (fun s => s.logpmid))
      (statsC7.map (fun s => s.median + 1 * s.sigma))
      (threshold_function_dynamic rlog0 pfit5 statsC7 (13/2) 1 2).2 := by
  have hfit : IsLeastSquaresFit 2 (statsC7.map (fun s => s.logpmid))
      (statsC7.map (fun s => s.median + 1 * s.sigma))
      (pfit5 2 (statsC7.map (fun s => s.logpmid))
        (statsC7.map (fun s => s.median + 1 * s.sigma))) := by
    constructor
    · norm_num [pfit5, statsC7]
    · intro c' hc'
      have h1 : ssr (statsC7.map (fun s => s.logpmid))
          (statsC7.map (fun s => s.median + 1 * s.sigma))
          (pfit5 2 (statsC7.map (fun s => s.logpmid))
            (statsC7.map (fun s => s.median + 1 * s.sigma))) = 0 := by
        norm_num [ssr, pfit5, statsC7, polyEval, List.replicate]
      have h2 : ssr (statsC7.map (fun s => s.logpmid))
          (statsC7.map (fun s => s.median + 1 * s.sigma)) c' =
          (polyEval c' 0 - 5) ^ 2 := by
        norm_num [ssr, statsC7]
      rw [h1, h2]
      positivity
  have h := segment_stats_and_lsq_fit [5, 5, 5, 5] [⟨0, 4, 2, 1, 0⟩] rlog0
    pfit5 (13/2) 1 2
    (by
      have ht : (2 : ℤ).toNat = 2 := rfl
      norm_num [segment_stats, statsRowOf, optMapM, sliceSeg, percentile,
        sortQ, insertQ, statsC7, List.cons_ne_nil, ht,
        List.getD_cons_zero, List.getD_cons_succ, List.getElem_cons_zero,
        List.getElem_cons_succ])
    hfit
  exact h.2.2.2

theorem take_get? {α : Type _} :
    ∀ {l : List α} {n i : ℕ}, i < n → (l.take n).get? i = l.get? i := by
  intro l
  induction l with
  | nil => intro n i hi; simp
  | cons a t ih =>
    intro n i hi
    cases n with
    | zero => omega
    | succ n' =>
      cases i with
      | zero => simp
      | succ i' =>
        have hi' : i' < n' := by omega
        simpa using ih hi'

theorem optMapM_map {α β γ : Type _} (f : β → Option γ) (g : α → β) :
    ∀ l : List α, optMapM f (l.map g) = optMapM (fun a => f (g a)) l := by
  intro l
  induction l with
  | nil => rfl
  | cons a t ih => simp only [List.map_cons, optMapM, ih]

theorem find_peaks_single_congr (rlog : ℚ → ℚ)
    (polyfit : ℕ → List ℚ → List ℚ → List ℚ) {pg1 pg2 : Pgram} (iw : ℕ)
    (bs : List Seg) (ms : ℕ) (sm ns r : ℚ) (d : ℕ)
    (hper : pg1.periods = pg2.periods) (hwid : pg1.widths = pg2.widths)
    (htobs : pg1.tobs = pg2.tobs) (hmeta : pg1.metadata = pg2.metadata)
    (hbins : pg1.bins_avg = pg2.bins_avg)
    (hcol : columnOf pg1.snrs iw = columnOf pg2.snrs iw) :
    find_peaks_single rlog polyfit pg1 iw bs ms sm ns r d =
      find_peaks_single rlog polyfit pg2 iw bs ms sm ns r d := by
  obtain ⟨p1, s1, w1, t1, m1, b1⟩ := pg1
  obtain ⟨p2, s2, w2, t2, m2, b2⟩ := pg2
  simp only [Pgram.mk.injEq] at *
  subst hper
  subst hwid
  subst htobs
  subst hmeta
  subst hbins
  unfold find_peaks_single
  rw [hcol]
  rfl

/-- C8 counterexample: a grid whose S/N column count (2) differs from its
width-trial count (1) is processed without any error — `find_peaks` returns a
result (the empty Detection list) instead of failing fast. -/
theorem shape_mismatch_counterexample :
    pgC8.snrs.map List.length = [2] ∧ pgC8.widths.length = 1 ∧
    find_peaks rlog0 pfit0 pgC8 10 8 (13/2) (13/2) (1/5) 2 1 = some [] := by
  refine ⟨rfl, rfl, ?_⟩
  norm_num [find_peaks_single, find_peaks, pooledPeaks, detection_mk, mkPeakOfCluster,
    columnOf, segment, segBounds, segment_stats, statsRowOf, sliceSeg,
    percentile, sortQ, insertQ, policyOf, threshold_function_static,
    threshold_function_dynamic, npGT, npBoolIndex, trueIndices, maskOf,
    cluster_1d, argsortIdx, insertIdx, gapSplit, argmaxFirstIdx, maxBySnr,
    optMapM, qtrunc, nsegOf, slenOf, detIdxOf, detFormula, peakFormula, peak0,
    rlog0, pfit0, pgW, bndW, statsW, resW, List.range_succ, List.filter_cons,
    List.isEmpty_cons, List.cons_ne_nil, List.getD_cons_zero,
    List.getD_cons_succ, Option.getD_some, Option.getD_none, List.replicate,
    max_def, min_def, -List.filter_eq_nil_iff, pgC8, List.getLastD, List.dropLast, Int.toNat]

/-- C8 (amended): `find_peaks` performs no explicit shape validation.  A
row/period count mismatch (with both counts at least 2) surfaces as a failure
of the elementwise threshold comparison — `none`, modelling the numpy
broadcast error — rather than a descriptive validation error, while a grid
with more S/N columns than width trials is not rejected: the peak-pooling
stage reads only the first `len(widths)` entries of each row, so truncating
the surplus columns changes nothing. -/
theorem no_shape_validation (rlog : ℚ → ℚ)
    (polyfit : ℕ → List ℚ → List ℚ → List ℚ) (pg : Pgram) (seg_len : ℚ)
    (min_segments : ℕ) (snr_min nsigma radius : ℚ) (polydeg : ℕ) (sw : ℚ) :
    (pg.widths ≠ [] →
      (∀ row ∈ pg.snrs, 1 ≤ row.length) →
      2 ≤ pg.periods.length → 2 ≤ pg.snrs.length →
      pg.snrs.length ≠ pg.periods.length →
      find_peaks rlog polyfit pg seg_len min_segments snr_min nsigma radius
        polydeg sw = none) ∧
    pooledPeaks rlog polyfit
        { pg with snrs := pg.snrs.map (fun row => row.take pg.widths.length) }
        seg_len min_segments snr_min nsigma radius polydeg =
      pooledPeaks rlog polyfit pg seg_len min_segments snr_min nsigma radius
        polydeg := by
  constructor
  · intro hwne hrect hp2 hr2 hneq
    have hpne : pg.periods ≠ [] := by
      intro hcon
      rw [hcon] at hp2
      simp at hp2
    obtain ⟨bs, hbs, -, -⟩ := segment_spec rlog pg.tobs seg_len hpne
    have hrows0 : ∀ row ∈ pg.snrs, ((fun row : List ℚ => row.get? 0) row).isSome := by
      intro row hrow
      have h0 : 0 < row.length := hrect row hrow
      show (row.get? 0).isSome
      rw [get?_getD h0 0]
      rfl
    obtain ⟨col, hcol⟩ := optMapM_isSome hrows0
    have hcollen : col.length = pg.snrs.length := optMapM_length hcol
    obtain ⟨w0, tl, hwidths⟩ := List.exists_cons_of_ne_nil hwne
    have hw0 : pg.widths.get? 0 = some w0 := by rw [hwidths]; rfl
    have hfps : find_peaks_single rlog polyfit pg 0 bs min_segments snr_min
        nsigma radius polydeg = none := by
      unfold find_peaks_single
      rw [show columnOf pg.snrs 0 = some col from hcol, Option.some_bind,
        hw0, Option.some_bind]
      cases hst : segment_stats col bs with
      | none => rfl
      | some stats =>
        rw [Option.some_bind]
        have hthrlen : (pg.periods.map (policyOf rlog polyfit bs stats
            min_segments snr_min nsigma polydeg).1).length =
            pg.periods.length := by simp
        have hgt : npGT col (pg.periods.map (policyOf rlog polyfit bs stats
            min_segments snr_min nsigma polydeg).1) = none := by
          unfold npGT
          rw [if_neg (by omega), if_neg (by omega), if_neg (by omega)]
        show (npGT col (pg.periods.map (policyOf rlog polyfit bs stats
          min_segments snr_min nsigma polydeg).1)).bind _ = none
        rw [hgt]
        rfl
    have hpool : pooledPeaks rlog polyfit pg seg_len min_segments snr_min
        nsigma radius polydeg = none := by
      unfold pooledPeaks
      rw [hbs, Option.some_bind]
      have hwlen : pg.widths.length = tl.length + 1 := by rw [hwidths]; rfl
      rw [hwlen, List.range_succ_eq_map]
      simp only [optMapM, hfps, Option.none_bind]
    unfold find_peaks
    rw [hpool]
    rfl
  · show pooledPeaks rlog polyfit
      { pg with snrs := pg.snrs.map (fun row => row.take pg.widths.length) }
      seg_len min_segments snr_min nsigma radius polydeg = _
    unfold pooledPeaks
    cases hbs : segment rlog pg.periods pg.tobs seg_len with
    | none => rfl
    | some bs =>
      simp only [Option.some_bind]
      have hmap : optMapM
          (fun iw => find_peaks_single rlog polyfit
            { pg with snrs := pg.snrs.map (fun row => row.take pg.widths.length) }
            iw bs min_segments snr_min nsigma radius polydeg)
          (List.range pg.widths.length) =
          optMapM
          (fun iw => find_peaks_single rlog polyfit pg iw bs min_segments
            snr_min nsigma radius polydeg)
          (List.range pg.widths.length) := by
        apply optMapM_congr
        intro iw hiw
        have hiw' : iw < pg.widths.length := List.mem_range.mp hiw
        refine @find_peaks_single_congr rlog polyfit _ pg iw bs min_segments
          snr_min nsigma radius polydeg rfl rfl rfl rfl rfl ?_
        show columnOf (pg.snrs.map (fun row => row.take pg.widths.length)) iw =
          columnOf pg.snrs iw
        unfold columnOf
        rw [optMapM_map]
        apply optMapM_congr
        intro row hrow
        exact take_get? hiw'
      rw [hmap]

/-- C8 witness: the row-mismatch grid `pgC8r` makes `find_peaks` fail, and
truncating `pgC8`'s surplus column leaves the pooled peaks unchanged. -/
theorem no_shape_validation_witness :
    find_peaks rlog0 pfit0 pgC8r 10 8 (13/2) (13/2) (1/5) 2 1 = none ∧
    pooledPeaks rlog0 pfit0
        { pgC8 with snrs := pgC8.snrs.map (fun row => row.take pgC8.widths.length) }
        10 8 (13/2) (13/2) (1/5) 2 =
      pooledPeaks rlog0 pfit0 pgC8 10 8 (13/2) (13/2) (1/5) 2 := by
  constructor
  · exact (no_shape_validation rlog0 pfit0 pgC8r 10 8 (13/2) (13/2) (1/5) 2 1).1
      (by simp [pgC8r])
      (by intro row hrow; simp [pgC8r] at hrow; rcases hrow with rfl | rfl <;> simp)
      (by simp [pgC8r]) (by simp [pgC8r]) (by simp [pgC8r])
  · exact (no_shape_validation rlog0 pfit0 pgC8 10 8 (13/2) (13/2) (1/5) 2 1).2

theorem set_get?_self {α : Type _} :
    ∀ {l : List α} {r : ℕ} (a : α), r < l.length → (l.set r a).get? r = some a := by
  intro l
  induction l with
  | nil => intro r a hr; simp at hr
  | cons x t ih =>
    intro r a hr
    cases r with
    | zero => simp
    | succ r' =>
      have hr' : r' < t.length := by simpa using hr
      simpa using ih a hr'

theorem optMapM_get?_eq_mapD {α : Type _} (dflt : α) {L : List α} :
    ∀ {idx : List ℕ} {ys : List α},
      optMapM (fun i => L.get? i) idx = some ys →
      ys = idx.map (fun i => L.getD i dflt) := by
  intro idx
  induction idx with
  | nil => intro ys h; simp [optMapM] at h; simp [← h]
  | cons a t ih =>
    intro ys h
    simp only [optMapM] at h
    cases hfa : L.get? a with
    | none => rw [hfa] at h; simp at h
    | some b =>
      rw [hfa] at h
      cases hrest : optMapM (fun i => L.get? i) t with
      | none => rw [hrest] at h; simp at h
      | some bs =>
        rw [hrest] at h
        simp at h
        subst h
        have hlt : a < L.length := by
          by_contra hcon
          push_neg at hcon
          rw [List.get?_eq_getElem?, List.getElem?_eq_none hcon] at hfa
          simp at hfa
        have hb : b = L.getD a dflt := by
          rw [get?_getD hlt dflt] at hfa
          exact (Option.some.inj hfa).symm
        rw [List.map_cons, ← ih hrest, hb]

theorem detection_mk_shared_inv {peaks : List Peak} {pgs : PgramShared}
    {sw : ℚ} {d : DetectionShared}
    (h : detection_mk_shared peaks pgs sw = some d) :
    ∃ top, maxBySnr peaks = some top ∧ d.toPeak = top ∧ d.peaks = peaks ∧
      d.width_trials = pgs.widths ∧ d.metaRef = pgs.metaRef ∧
      d.period_trials =
        (trueIndices ((pgs.periods.map (fun p => pgs.tobs / p)).map
          (fun dd => decide (|dd - pgs.tobs / top.period| < sw / 2)))).map
          (fun i => pgs.periods.getD i 0) ∧
      d.snr_trials =
        (trueIndices ((pgs.periods.map (fun p => pgs.tobs / p)).map
          (fun dd => decide (|dd - pgs.tobs / top.period| < sw / 2)))).map
          (fun i => pgs.snrs.getD i []) := by
  unfold detection_mk_shared at h
  obtain ⟨top, hmax, h'⟩ := Option.bind_eq_some.mp h
  obtain ⟨pt, h1, h''⟩ := Option.bind_eq_some.mp h'
  obtain ⟨st, h2, h'''⟩ := Option.bind_eq_some.mp h''
  have hd := (Option.some.inj h''').symm
  subst hd
  exact ⟨top, hmax, rfl, rfl, rfl, rfl, optMapM_get?_eq_mapD 0 h1,
    optMapM_get?_eq_mapD [] h2⟩

/-- C9 counterexample: after constructing a Detection, mutating the grid's
metadata object in the store changes what the Detection's metadata attribute
dereferences to — the metadata is not an independent copy. -/
theorem detection_metadata_mutation_counterexample :
    detection_mk_shared [pk9] pgS 1 = some dS ∧
    readMeta (writeMeta [⟨0⟩] pgS.metaRef ⟨1⟩) dS.metaRef ≠
      readMeta [⟨0⟩] dS.metaRef := by
  constructor
  · norm_num [detection_mk_shared, maxBySnr, pk9, pgS, dS, optMapM,
      trueIndices, List.range_succ, List.filter_cons,
      List.getD_cons_zero, Option.getD_some]
  · norm_num [readMeta, writeMeta, pgS, dS]

/-- C9 (amended): a Detection owns its period-trial window and S/N sub-grid
as value extracts of the grid (numpy fancy indexing copies) and takes the
width list, but its metadata attribute is a reference to the originating
grid's metadata object: the Detection stores the grid's reference unchanged,
so mutating the grid's metadata in the store after construction is visible
through the Detection. -/
theorem detection_metadata_by_reference (peaks : List Peak)
    (pgs : PgramShared) (sw : ℚ) {d : DetectionShared}
    (h : detection_mk_shared peaks pgs sw = some d) :
    d.metaRef = pgs.metaRef ∧
    d.width_trials = pgs.widths ∧
    (∃ top, maxBySnr peaks = some top ∧ d.toPeak = top ∧
      d.period_trials =
        (trueIndices ((pgs.periods.map (fun p => pgs.tobs / p)).map
          (fun dd => decide (|dd - pgs.tobs / top.period| < sw / 2)))).map
          (fun i => pgs.periods.getD i 0) ∧
      d.snr_trials =
        (trueIndices ((pgs.periods.map (fun p => pgs.tobs / p)).map
          (fun dd => decide (|dd - pgs.tobs / top.period| < sw / 2)))).map
          (fun i => pgs.snrs.getD i [])) ∧
    ∀ (store : List Metadata) (m' : Metadata),
      pgs.metaRef < store.length →
      readMeta (writeMeta store pgs.metaRef m') d.metaRef = some m' := by
  obtain ⟨top, hmax, htop, hpeaks, hwid, href, hpt, hst⟩ :=
    detection_mk_shared_inv h
  refine ⟨href, hwid, ⟨top, hmax, htop, hpt, hst⟩, ?_⟩
  intro store m' hlt
  unfold readMeta writeMeta
  rw [href]
  exact set_get?_self m' hlt

/-- C9 witness: the concrete shared-metadata Detection `dS` stores `pgS`'s
metadata reference and width list. -/
theorem detection_metadata_by_reference_witness :
    dS.metaRef = pgS.metaRef ∧ dS.width_trials = pgS.widths := by
  have h := @detection_metadata_by_reference [pk9] pgS 1 dS
    (by norm_num [detection_mk_shared, maxBySnr, pk9, pgS, dS, optMapM,
      trueIndices, List.range_succ, List.filter_cons,
      List.getD_cons_zero, Option.getD_some])
  exact ⟨h.1, h.2.1⟩

end Riptide

